import Mathlib

/-!
Verification of the dependency-aware task engine in
`lesson5/agent_orchestration/` (`tasks_basic.py`,
`tasks_with_dependencies.py`, `multi_agent_swarm.py`).

The Python code is shallowly embedded: `dict[str, T]` becomes an
insertion-ordered association list (Python dicts preserve insertion order;
assignment to an existing key replaces in place, assignment to a new key
appends at the end), object mutation becomes explicit state passing, and
`datetime.now()` becomes an explicit `now : String` parameter (timestamps
are opaque strings to the engine).
-/

namespace TasksEngine

/-! ## Association-list dictionaries (Python `dict[str, α]`) -/

/-- Membership test, `key in d`. -/
def containsKey {α : Type} : List (String × α) → String → Bool
  | [], _ => false
  | p :: rest, k => p.1 = k || containsKey rest k

/-- Lookup, `d.get(key)` returning `None` when absent. -/
def lookup {α : Type} : List (String × α) → String → Option α
  | [], _ => none
  | p :: rest, k => if p.1 = k then some p.2 else lookup rest k

/-- Python dict assignment `d[key] = v`: replaces in place when the key
exists, appends at the end otherwise. -/
def dictSet {α : Type} : List (String × α) → String → α → List (String × α)
  | [], k, v => [(k, v)]
  | p :: rest, k, v => if p.1 = k then (k, v) :: rest else p :: dictSet rest k v

/-- In-place mutation of the value stored under a key
(`d[key].field = ...`); no-op when the key is absent. -/
def dictModify {α : Type} : List (String × α) → String → (α → α) → List (String × α)
  | [], _, _ => []
  | p :: rest, k, f => if p.1 = k then (p.1, f p.2) :: rest else p :: dictModify rest k f

/-- Values of the dict in insertion order (`d.values()`). -/
def valuesOf {α : Type} (d : List (String × α)) : List α := d.map (fun p => p.2)

/-- Keys of the dict in insertion order (`d.keys()`). -/
def keysOf {α : Type} (d : List (String × α)) : List String := d.map (fun p => p.1)

/-! ## Task data model (`tasks_basic.py`) -/

/-- Task record, mirroring the `@dataclass Task` in `tasks_basic.py`.
`metadata` is an untyped `dict` in the source; the engine only ever reads
string values from it (`metadata.get("agent_type", ...)`), so it is
modelled as a string-to-string association list. -/
structure Task where
  id : String
  subject : String
  description : String
  status : String
  active_form : String
  owner : Option String
  blocked_by : List String
  blocks : List String
  created_at : String
  completed_at : Option String
  metadata : List (String × String)
deriving DecidableEq, Repr

/-- Default-constructed `Task(id="", subject="", description="")` used by
`list_available` as the fallback of `dict.get`; only its `status`
("pending", the dataclass default) is ever read, so the `created_at`
timestamp is modelled as the empty string. -/
def defaultTask : Task :=
  { id := "", subject := "", description := "", status := "pending",
    active_form := "", owner := none, blocked_by := [], blocks := [],
    created_at := "", completed_at := none, metadata := [] }

/-- Association-list dictionary keyed by task id. -/
abbrev TaskDict := List (String × Task)

/-- State of a `TaskList` object: the id-keyed task dict plus the
`_next_id` counter.  The storage path is a function of `list_id` and is
not part of the in-memory state. -/
structure TaskList where
  list_id : String
  tasks : TaskDict
  next_id : Nat
deriving Repr

/-- Fresh `TaskList` (no snapshot on disk): empty dict, `_next_id = 1`. -/
def TaskList.empty (lid : String) : TaskList :=
  { list_id := lid, tasks := [], next_id := 1 }

/-- Python truthiness of an `Optional[str]` argument (`if status:` is false
for both `None` and `""`). -/
def truthyS : Option String → Bool
  | none => false
  | some s => !(s == "")

/-- Python truthiness of an `Optional[list]` argument. -/
def truthyL : Option (List String) → Bool
  | none => false
  | some l => !l.isEmpty

/-- `TaskList.create`: allocates `str(self._next_id)`, constructs the task
in `pending` status, stores it, then appends the new id to `blocks` of
every *existing* dependency (ids in `blocked_by` that are not keys are
silently skipped).  Returns the new state and the stored task. -/
def TaskList.create (s : TaskList) (subject description : String)
    (active_form : String) (blocked_by : Option (List String)) (now : String) :
    TaskList × Task :=
  let task_id := toString s.next_id
  let bb := match blocked_by with
    | none => []
    | some l => l
  let t : Task :=
    { id := task_id, subject := subject, description := description,
      status := "pending",
      active_form := if active_form = "" then "Working on: " ++ subject else active_form,
      owner := none, blocked_by := bb, blocks := [],
      created_at := now, completed_at := none, metadata := [] }
  let d1 := dictSet s.tasks task_id t
  let d2 := bb.foldl (fun d dep =>
      if containsKey d dep then
        dictModify d dep (fun u => { u with blocks := u.blocks ++ [task_id] })
      else d) d1
  ({ s with tasks := d2, next_id := s.next_id + 1 },
   (lookup d2 task_id).getD t)

/-- `TaskList.update`: raises `ValueError` when the id is unknown,
otherwise mutates exactly the supplied (truthy) fields in source order:
status (stamping `completed_at` on "completed"), subject, description,
owner, then the `add_blocked_by` loop (append to `blocked_by` when not
already present; append the reverse `blocks` edge when the dependency id
exists), then the symmetric `add_blocks` loop. -/
def TaskList.update (s : TaskList) (task_id : String)
    (status subject description owner : Option String)
    (add_blocked_by add_blocks : Option (List String)) (now : String) :
    Except String (TaskList × Task) :=
  if containsKey s.tasks task_id then
    let d1 := if truthyS status then
        dictModify s.tasks task_id (fun t =>
          let st := status.getD ""
          let t1 := { t with status := st }
          if st = "completed" then { t1 with completed_at := some now } else t1)
      else s.tasks
    let d2 := if truthyS subject then
        dictModify d1 task_id (fun t => { t with subject := subject.getD "" })
      else d1
    let d3 := if truthyS description then
        dictModify d2 task_id (fun t => { t with description := description.getD "" })
      else d2
    let d4 := if truthyS owner then
        dictModify d3 task_id (fun t => { t with owner := owner })
      else d3
    let d5 := if truthyL add_blocked_by then
        (add_blocked_by.getD []).foldl (fun d dep =>
          let d' := if ((lookup d task_id).getD defaultTask).blocked_by.contains dep then d
            else dictModify d task_id (fun t => { t with blocked_by := t.blocked_by ++ [dep] })
          if containsKey d' dep then
            dictModify d' dep (fun t => { t with blocks := t.blocks ++ [task_id] })
          else d') d4
      else d4
    let d6 := if truthyL add_blocks then
        (add_blocks.getD []).foldl (fun d bid =>
          let d' := if ((lookup d task_id).getD defaultTask).blocks.contains bid then d
            else dictModify d task_id (fun t => { t with blocks := t.blocks ++ [bid] })
          if containsKey d' bid then
            dictModify d' bid (fun t => { t with blocked_by := t.blocked_by ++ [task_id] })
          else d') d5
      else d5
    Except.ok ({ s with tasks := d6 }, (lookup d6 task_id).getD defaultTask)
  else
    Except.error ("Task " ++ task_id ++ " not found")

/-- `TaskList.get`. -/
def TaskList.get (s : TaskList) (task_id : String) : Option Task :=
  lookup s.tasks task_id

/-- `TaskList.list_all`: every task, in dict (insertion) order. -/
def TaskList.list_all (s : TaskList) : List Task := valuesOf s.tasks

/-- Status that `list_available` observes for a dependency id:
`self.tasks.get(dep_id, Task(id="", subject="", description="")).status`,
i.e. "pending" when the id names no task. -/
def depStatus (s : TaskList) (dep_id : String) : String :=
  ((lookup s.tasks dep_id).getD defaultTask).status

/-- `TaskList.list_available`: skips tasks whose status is "completed"
(and only those), then keeps a task iff every id in its `blocked_by`
observes status "completed" via `depStatus`. -/
def TaskList.list_available (s : TaskList) : List Task :=
  (valuesOf s.tasks).filter (fun t =>
    (!(t.status == "completed")) &&
    t.blocked_by.all (fun dep => depStatus s dep == "completed"))

/-! ## Decimal digits (for `str(self._next_id)` id freshness) -/

/-- Numeric value of a decimal digit character. -/
def digitVal (c : Char) : Nat := c.toNat - 48

/-- Value of a decimal digit string, most significant digit first. -/
def strVal (l : List Char) : Nat := l.foldl (fun a c => a * 10 + digitVal c) 0

/-! ## Persistence (`_save` / `_load`) -/

/-- JSON values as produced by `json.dumps` on `asdict(task)`: the engine
serialises only strings, `None`, lists of strings and string-valued
dicts. -/
inductive Json where
  | null : Json
  | str : String → Json
  | arr : List Json → Json
  | obj : List (String × Json) → Json

/-- Serialisation of an `Optional[str]` field. -/
def optStrToJson : Option String → Json
  | none => Json.null
  | some s => Json.str s

/-- `asdict(task)`: the dataclass fields in declaration order. -/
def taskToJson (t : Task) : Json :=
  Json.obj [
    ("id", Json.str t.id),
    ("subject", Json.str t.subject),
    ("description", Json.str t.description),
    ("status", Json.str t.status),
    ("active_form", Json.str t.active_form),
    ("owner", optStrToJson t.owner),
    ("blocked_by", Json.arr (t.blocked_by.map Json.str)),
    ("blocks", Json.arr (t.blocks.map Json.str)),
    ("created_at", Json.str t.created_at),
    ("completed_at", optStrToJson t.completed_at),
    ("metadata", Json.obj (t.metadata.map (fun p => (p.1, Json.str p.2))))]

/-- Decode a string field. -/
def jStr? : Json → Option String
  | Json.str s => some s
  | _ => none

/-- Decode an `Optional[str]` field. -/
def jOptStr? : Json → Option (Option String)
  | Json.null => some none
  | Json.str s => some (some s)
  | _ => none

/-- Decode a list-of-strings field. -/
def jStrList? : Json → Option (List String)
  | Json.arr l => l.foldr (fun j acc =>
      match jStr? j, acc with
      | some s, some rest => some (s :: rest)
      | _, _ => none) (some [])
  | _ => none

/-- Decode a string-valued dict field. -/
def jStrMap? : Json → Option (List (String × String))
  | Json.obj l => l.foldr (fun p acc =>
      match jStr? p.2, acc with
      | some s, some rest => some ((p.1, s) :: rest)
      | _, _ => none) (some [])
  | _ => none

/-- The keyword-argument names `Task(**task_data)` accepts. -/
def taskFieldNames : List String :=
  ["id", "subject", "description", "status", "active_form", "owner",
   "blocked_by", "blocks", "created_at", "completed_at", "metadata"]

/-- `Task(**task_data)`: fails (TypeError) when a key is not a dataclass
field or a required field (`id`, `subject`, `description`) is missing or
ill-typed; otherwise fills absent optional fields with the dataclass
defaults (`created_at` defaults to the current timestamp `now`). -/
def taskFromJson (now : String) : Json → Option Task
  | Json.obj fields =>
    if fields.all (fun p => taskFieldNames.contains p.1) then
      match (lookup fields "id").bind jStr?,
            (lookup fields "subject").bind jStr?,
            (lookup fields "description").bind jStr? with
      | some id, some subject, some description =>
        let status := match lookup fields "status" with
          | none => some "pending"
          | some j => jStr? j
        let active_form := match lookup fields "active_form" with
          | none => some ""
          | some j => jStr? j
        let owner := match lookup fields "owner" with
          | none => some none
          | some j => jOptStr? j
        let blocked_by := match lookup fields "blocked_by" with
          | none => some []
          | some j => jStrList? j
        let blocks := match lookup fields "blocks" with
          | none => some []
          | some j => jStrList? j
        let created_at := match lookup fields "created_at" with
          | none => some now
          | some j => jStr? j
        let completed_at := match lookup fields "completed_at" with
          | none => some none
          | some j => jOptStr? j
        let metadata := match lookup fields "metadata" with
          | none => some []
          | some j => jStrMap? j
        match status, active_form, owner, blocked_by, blocks,
              created_at, completed_at, metadata with
        | some status, some active_form, some owner, some blocked_by,
          some blocks, some created_at, some completed_at, some metadata =>
          some { id := id, subject := subject, description := description,
                 status := status, active_form := active_form, owner := owner,
                 blocked_by := blocked_by, blocks := blocks,
                 created_at := created_at, completed_at := completed_at,
                 metadata := metadata }
        | _, _, _, _, _, _, _, _ => none
      | _, _, _ => none
    else none
  | _ => none

/-- `_save`: the whole-document snapshot written under the list id. -/
def TaskList.save (s : TaskList) (now : String) : Json :=
  Json.obj [
    ("list_id", Json.str s.list_id),
    ("updated_at", Json.str now),
    ("tasks", Json.arr ((valuesOf s.tasks).map taskToJson))]

/-- The `_load` loop body: insert each decoded task under its own id and
track the highest numeric id (`int(task.id)`, ignored when the id is not
numeric) for `_next_id` assignment. -/
def loadTasks (now : String) : List Json → TaskDict → Nat → Option (TaskDict × Nat)
  | [], d, nid => some (d, nid)
  | j :: rest, d, nid =>
    match taskFromJson now j with
    | none => none
    | some t =>
      let nid' := match t.id.toNat? with
        | some m => max nid (m + 1)
        | none => nid
      loadTasks now rest (dictSet d t.id t) nid'

/-- `TaskList(list_id)` when a snapshot exists on disk: start from the
fresh state and run `_load` over `data.get("tasks", [])`. -/
def TaskList.load (lid : String) (doc : Json) (now : String) : Option TaskList :=
  match doc with
  | Json.obj fields =>
    let tj := match lookup fields "tasks" with
      | some (Json.arr l) => some l
      | some _ => none
      | none => some []
    match tj with
    | none => none
    | some l =>
      match loadTasks now l [] 1 with
      | none => none
      | some (d, nid) => some { list_id := lid, tasks := d, next_id := nid }
  | _ => none

/-! ## Critical path (`tasks_with_dependencies.py`) -/

/-- Result of `path_length`: the chain length and the chain itself. -/
abbrev PLResult := Nat × List String

/-- The memo dict of `find_critical_path.path_length`. -/
abbrev Memo := List (String × PLResult)

/-- `path_length(task_id, memo)` with explicit recursion fuel (the Python
recursion is unbounded; on an acyclic graph its depth is at most the
number of tasks, and `find_critical_path` below supplies that much fuel).
A memo hit returns the cached pair; an unknown id yields `(0, [])`
(without caching, as in the source); a leaf yields `(1, [task_id])`;
otherwise the children are scanned keeping the first strict maximum. -/
def path_length (s : TaskList) : Nat → String → Memo → PLResult × Memo
  | 0, _, memo => ((0, []), memo)
  | fuel + 1, task_id, memo =>
    match lookup memo task_id with
    | some v => (v, memo)
    | none =>
      match TaskList.get s task_id with
      | none => ((0, []), memo)
      | some t =>
        if t.blocks.isEmpty then
          ((1, [task_id]), dictSet memo task_id (1, [task_id]))
        else
          let r := t.blocks.foldl
            (fun (p : PLResult × Memo) child =>
              let q := path_length s fuel child p.2
              (if q.1.1 > p.1.1 then q.1 else p.1, q.2))
            ((0, []), memo)
          ((1 + r.1.1, task_id :: r.1.2),
           dictSet r.2 task_id (1 + r.1.1, task_id :: r.1.2))

/-- Memo-free reference recursion with the same value as `path_length`
(the memo is a pure cache); used only in proofs. -/
def plainPL (s : TaskList) : Nat → String → PLResult
  | 0, _ => (0, [])
  | fuel + 1, task_id =>
    match TaskList.get s task_id with
    | none => (0, [])
    | some t =>
      if t.blocks.isEmpty then (1, [task_id])
      else
        let r := t.blocks.foldl
          (fun (acc : PLResult) child =>
            let q := plainPL s fuel child
            if q.1 > acc.1 then q else acc)
          (0, [])
        (1 + r.1, task_id :: r.2)

/-- `find_critical_path`: scan the roots (tasks with empty `blocked_by`,
in dict order), call `path_length` on each with a fresh memo, and keep the
first strict maximum. -/
def find_critical_path (s : TaskList) : List String :=
  let fuel := s.tasks.length + 1
  let roots := ((valuesOf s.tasks).filter (fun t => t.blocked_by.isEmpty)).map
    (fun t => t.id)
  (roots.foldl (fun (acc : PLResult) root =>
      let r := (path_length s fuel root []).1
      if r.1 > acc.1 then r else acc) (0, [])).2

/-- Chain of tasks connected by `blocks` edges: every id is a stored task
and each consecutive pair is linked by a `blocks` edge. -/
def isChain (s : TaskList) : List String → Bool
  | [] => true
  | [a] => containsKey s.tasks a
  | a :: b :: rest =>
    (match TaskList.get s a with
     | some t => t.blocks.contains b
     | none => false) && isChain s (b :: rest)

/-! ## Swarm coordinator (`multi_agent_swarm.py`) -/

/-- Coordinator state: the shared `TaskList` and the `results` map
(`task_id -> result`, in insertion order). -/
structure SwarmState where
  tasks : TaskList
  results : List (String × String)
deriving Repr

/-- Abstraction of `run_sub_agent` (an external API call): given the task
(whose `description` and `metadata` select the prompt and the agent) and
the dependency context, it returns a result or raises an error.  The
claims assume every invocation returns. -/
abbrev Executor := Task → String → Except String String

/-- `get_dependency_context`: for each dependency id that has an entry in
`results` and still names a task, an XML-ish result block; blocks joined
by blank lines. -/
def get_dependency_context (st : SwarmState) (task_id : String) : String :=
  match st.tasks.get task_id with
  | none => ""
  | some t =>
    if t.blocked_by.isEmpty then ""
    else
      String.intercalate "\n\n" (t.blocked_by.filterMap (fun dep =>
        match lookup st.results dep, st.tasks.get dep with
        | some r, some dt =>
          some ("<result task_id=\"" ++ dep ++ "\" task=\"" ++ dt.subject ++
            "\">\n" ++ r ++ "\n</result>")
        | _, _ => none))

/-- Phase one of a wave: every `execute_task` coroutine runs to its first
`await`, marking its task `in_progress` (the `asyncio.gather` argument
order, which is the `list_available` order). -/
def markWave (now : String) : List Task → TaskList → Except String TaskList
  | [], tl => Except.ok tl
  | t :: rest, tl =>
    match tl.update t.id (some "in_progress") none none none none none now with
    | Except.error e => Except.error e
    | Except.ok (tl', _) => markWave now rest tl'

/-- Phase two of a wave: each executor call resolves; on success the
result is stored and the task marked `completed`; the first raised error
propagates out of `asyncio.gather` (there is no try/except in the source),
leaving the failing task as it was. -/
def runWave (execf : Executor) (now : String) :
    List (Task × String) → SwarmState → SwarmState × Except String (List String)
  | [], st => (st, Except.ok [])
  | (t, ctx) :: rest, st =>
    match execf t ctx with
    | Except.error e => (st, Except.error e)
    | Except.ok r =>
      let st1 : SwarmState := { st with results := st.results ++ [(t.id, r)] }
      match st1.tasks.update t.id (some "completed") none none none none none now with
      | Except.error e => (st1, Except.error e)
      | Except.ok (tl', _) =>
        let res := runWave execf now rest { st1 with tasks := tl' }
        (res.1, res.2.map (fun ids => t.id :: ids))

/-- `execute_available`: read the frontier; if empty return `[]`,
otherwise run the wave (mark everything `in_progress`, snapshot each
dependency context, then resolve the executor calls) and return the
completed ids. -/
def executeAvailable (execf : Executor) (now : String) (st : SwarmState) :
    SwarmState × Except String (List String) :=
  let available := st.tasks.list_available
  if available.isEmpty then (st, Except.ok [])
  else
    match markWave now available st.tasks with
    | Except.error e => (st, Except.error e)
    | Except.ok tl1 =>
      let st1 : SwarmState := { st with tasks := tl1 }
      runWave execf now (available.map (fun t => (t, get_dependency_context st1 t.id))) st1

/-- `run_until_complete`, with explicit loop fuel: `none` stands for
running out of fuel (the claims prove this never happens for sufficient
fuel); otherwise the final coordinator state together with the returned
results map, or the error that aborted the run. -/
def runLoop (execf : Executor) (now : String) :
    Nat → SwarmState → Option (SwarmState × Except String (List (String × String)))
  | 0, _ => none
  | fuel + 1, st =>
    let pending := st.tasks.list_all.filter (fun t => !(t.status == "completed"))
    if pending.isEmpty then some (st, Except.ok st.results)
    else
      match executeAvailable execf now st with
      | (st', Except.error e) => some (st', Except.error e)
      | (st', Except.ok completed) =>
        if completed.isEmpty then some (st', Except.ok st'.results)
        else runLoop execf now fuel st'

/-! ## Reachable states and invariants -/

/-- Every stored pair's key is the task's own id (holds for every state
the Python code ever builds, since tasks are stored as
`self.tasks[task.id] = task`). -/
def KeysMatch (s : TaskList) : Prop := ∀ p ∈ s.tasks, Task.id p.2 = p.1

/-- Distinct keys (automatic for a Python dict). -/
def KeysNodup (s : TaskList) : Prop := (keysOf s.tasks).Nodup

/-- Every key is a decimal numeral strictly below `_next_id` (holds in
every reachable state; gives freshness of newly allocated ids). -/
def IdsBounded (s : TaskList) : Prop :=
  ∀ p ∈ s.tasks, ∃ n : Nat, p.1 = toString n ∧ n < s.next_id

/-- Forward half of edge symmetry: every dependency id stored in a
`blocked_by` names a task whose `blocks` contains the dependent. -/
def EdgeSymA (s : TaskList) : Prop :=
  ∀ p ∈ s.tasks, ∀ d ∈ (Task.blocked_by p.2),
    ∃ td, lookup s.tasks d = some td ∧ p.1 ∈ td.blocks

/-- Backward half of edge symmetry. -/
def EdgeSymB (s : TaskList) : Prop :=
  ∀ p ∈ s.tasks, ∀ b ∈ (Task.blocks p.2),
    ∃ tb, lookup s.tasks b = some tb ∧ p.1 ∈ tb.blocked_by

/-- Acyclicity certificate for the `blocks` graph: a rank that strictly
drops along every stored `blocks` edge. -/
def RankOk (s : TaskList) (rank : String → Nat) : Prop :=
  ∀ p ∈ s.tasks, ∀ c ∈ Task.blocks p.2, rank c < rank p.1

/-- Every `blocks` edge points at a stored task. -/
def BlocksClosed (s : TaskList) : Prop :=
  ∀ p ∈ s.tasks, ∀ c ∈ Task.blocks p.2, containsKey s.tasks c = true

/-- The rank of every stored id is below the task count (so the fuel
`len(tasks) + 1` used by `find_critical_path` covers every recursion). -/
def RankBound (s : TaskList) (rank : String → Nat) : Prop :=
  ∀ p ∈ s.tasks, rank p.1 < s.tasks.length

/-- Roots are the tasks `find_critical_path` starts from: stored tasks
with an empty `blocked_by`. -/
def isRoot (s : TaskList) (id : String) : Bool :=
  match lookup s.tasks id with
  | some t => t.blocked_by.isEmpty
  | none => false

/-- Soundness of the `path_length` memo dict: every cached entry is the
`plainPL` value of its key at any sufficient fuel. -/
def MemoOk (s : TaskList) (rank : String → Nat) (memo : Memo) : Prop :=
  ∀ k v, lookup memo k = some v → ∀ g, rank k < g → plainPL s g k = v

/-- Invariant of the root scan in `find_critical_path`: the accumulator is
a realizable candidate (its path has its recorded length and, when
non-trivial, is a chain headed by a root). -/
def GoodPath (s : TaskList) (acc : PLResult) : Prop :=
  acc.2.length = acc.1 ∧ (1 ≤ acc.1 → isChain s acc.2 = true ∧
    ∃ rt, acc.2.head? = some rt ∧ isRoot s rt = true)

/-- States reachable by `create`/`update` calls in which every id passed
in `blocked_by`, `add_blocked_by` or `add_blocks` names an existing task
at call time (the referential-integrity precondition the spec demands of
callers). -/
inductive ReachableChecked : TaskList → Prop where
  | init (lid : String) : ReachableChecked (TaskList.empty lid)
  | create (s : TaskList) (subject description active_form : String)
      (blocked_by : Option (List String)) (now : String) :
      ReachableChecked s →
      (∀ d ∈ blocked_by.getD [], containsKey s.tasks d = true) →
      ReachableChecked (s.create subject description active_form blocked_by now).1
  | update (s s' : TaskList) (t : Task) (task_id : String)
      (status subject description owner : Option String)
      (add_blocked_by add_blocks : Option (List String)) (now : String) :
      ReachableChecked s →
      (∀ d ∈ add_blocked_by.getD [], containsKey s.tasks d = true) →
      (∀ d ∈ add_blocks.getD [], containsKey s.tasks d = true) →
      s.update task_id status subject description owner
        add_blocked_by add_blocks now = Except.ok (s', t) →
      ReachableChecked s'

/-- States reachable by arbitrary (successful) `create`/`update` calls,
with no side conditions on the ids passed in. -/
inductive Reachable : TaskList → Prop where
  | init (lid : String) : Reachable (TaskList.empty lid)
  | create (s : TaskList) (subject description active_form : String)
      (blocked_by : Option (List String)) (now : String) :
      Reachable s →
      Reachable (s.create subject description active_form blocked_by now).1
  | update (s s' : TaskList) (t : Task) (task_id : String)
      (status subject description owner : Option String)
      (add_blocked_by add_blocks : Option (List String)) (now : String) :
      Reachable s →
      s.update task_id status subject description owner
        add_blocked_by add_blocks now = Except.ok (s', t) →
      Reachable s'

/-- Number of tasks whose status is not "completed" (the `pending`
filter of `run_until_complete`). -/
def nonCompletedCount (s : TaskList) : Nat :=
  (s.list_all.filter (fun t => !(t.status == "completed"))).length

/-! ## Concrete states used as witnesses and counterexamples -/

/-- The state an `Except.ok` update produced (the updates below all
succeed; the fallback is never taken). -/
def okState (r : Except String (TaskList × Task)) (fallback : TaskList) : TaskList :=
  match r with
  | Except.ok (s, _) => s
  | Except.error _ => fallback

/-- One task "1", still pending. -/
def exSingle : TaskList :=
  ((TaskList.empty "ex-single").create "A" "first task" "" none "t0").1

/-- One task "1" whose status was set to "failed" by an update call (as a
coordinator handling executor failure per the spec would do). -/
def exFailed : TaskList :=
  okState (exSingle.update "1" (some "failed") none none none none none "t1") exSingle

/-- One task "1" whose status was set to "completed". -/
def exCompleted : TaskList :=
  okState (exSingle.update "1" (some "completed") none none none none none "t1") exSingle

/-- A task created with a `blocked_by` id ("99") that names no task. -/
def exDangling : TaskList :=
  ((TaskList.empty "ex-dangling").create "T" "dangling dep" "" (some ["99"]) "t0").1

/-- A task created with `blocked_by = ["1"]` on an empty list: "1" is the
id the create call itself allocates, producing a self-loop. -/
def exSelfLoop : TaskList :=
  ((TaskList.empty "ex-selfloop").create "T" "self dep" "" (some ["1"]) "t0").1

/-- Diamond graph from `demo_diamond_pattern`: A("1") blocks B("2") and
C("3"); B and C both block D("4"). -/
def exDiamond : TaskList :=
  let s1 := ((TaskList.empty "diamond-demo").create "Setup database"
    "Create database schema" "" none "t0").1
  let s2 := (s1.create "User service" "Build user management" "" (some ["1"]) "t1").1
  let s3 := (s2.create "Auth service" "Build authentication" "" (some ["1"]) "t2").1
  (s3.create "API gateway" "Build gateway that uses both" "" (some ["2", "3"]) "t3").1

/-- Rank function witnessing acyclicity of `exDiamond`. -/
def exDiamondRank (id : String) : Nat :=
  if id = "4" then 0 else if id = "2" then 1 else if id = "3" then 1 else
  if id = "1" then 2 else 0

/-- Executor that always succeeds. -/
def alwaysOk : Executor := fun t _ => Except.ok ("done " ++ t.id)

/-- Executor that always raises. -/
def alwaysFail : Executor := fun _ _ => Except.error "boom"

/-- Diamond state after completing task "1": tasks "2" and "3" form the
next frontier. -/
def exDiamondDone1 : TaskList :=
  okState (exDiamond.update "1" (some "completed") none none none none none "t4") exDiamond

def exSwarmSingle : SwarmState := { tasks := exSingle, results := [] }

def exSwarmDiamond : SwarmState := { tasks := exDiamond, results := [] }

/-- Dict-level key/id agreement. -/
def DKeysMatch (d : TaskDict) : Prop := ∀ p ∈ d, Task.id p.2 = p.1

/-- Dict-level forward edge symmetry. -/
def DEdgeSymA (d : TaskDict) : Prop :=
  ∀ p ∈ d, ∀ x ∈ Task.blocked_by p.2, ∃ td, lookup d x = some td ∧ p.1 ∈ td.blocks

/-- Dict-level backward edge symmetry. -/
def DEdgeSymB (d : TaskDict) : Prop :=
  ∀ p ∈ d, ∀ x ∈ Task.blocks p.2, ∃ tb, lookup d x = some tb ∧ p.1 ∈ tb.blocked_by

/-- The full invariant of reachable (checked) states. -/
def Inv (s : TaskList) : Prop :=
  KeysMatch s ∧ KeysNodup s ∧ IdsBounded s ∧ EdgeSymA s ∧ EdgeSymB s

/-! ## Lemmas: association-list dictionaries -/

theorem containsKey_iff_mem {α : Type} (d : List (String × α)) (k : String) :
    containsKey d k = true ↔ k ∈ keysOf d := by
  induction d with
  | nil => simp [containsKey, keysOf]
  | cons p rest ih =>
    simp only [containsKey, Bool.or_eq_true, decide_eq_true_eq, ih, keysOf,
      List.map_cons, List.mem_cons]
    exact or_congr ⟨Eq.symm, Eq.symm⟩ Iff.rfl

theorem containsKey_false_iff {α : Type} (d : List (String × α)) (k : String) :
    containsKey d k = false ↔ k ∉ keysOf d := by
  rw [← containsKey_iff_mem]
  simp

theorem lookup_eq_none_iff {α : Type} (d : List (String × α)) (k : String) :
    lookup d k = none ↔ containsKey d k = false := by
  induction d with
  | nil => simp [lookup, containsKey]
  | cons p rest ih =>
    by_cases h : p.1 = k <;> simp [lookup, containsKey, h, ih]

theorem containsKey_iff_lookup {α : Type} (d : List (String × α)) (k : String) :
    containsKey d k = true ↔ ∃ v, lookup d k = some v := by
  induction d with
  | nil => simp [lookup, containsKey]
  | cons p rest ih =>
    by_cases h : p.1 = k <;> simp [lookup, containsKey, h, ih]

theorem mem_of_lookup_eq_some {α : Type} {d : List (String × α)} {k : String} {v : α}
    (h : lookup d k = some v) : (k, v) ∈ d := by
  induction d with
  | nil => simp [lookup] at h
  | cons p rest ih =>
    obtain ⟨a, b⟩ := p
    by_cases hp : a = k
    · simp [lookup, hp] at h
      rw [← hp, ← h]
      exact List.mem_cons_self _ _
    · simp [lookup, hp] at h
      exact List.mem_cons_of_mem _ (ih h)

theorem lookup_eq_some_of_mem {α : Type} {d : List (String × α)} {k : String} {v : α}
    (hmem : (k, v) ∈ d) (hnd : (keysOf d).Nodup) : lookup d k = some v := by
  induction d with
  | nil => simp at hmem
  | cons p rest ih =>
    simp only [keysOf, List.map_cons, List.nodup_cons] at hnd
    rcases List.mem_cons.mp hmem with h | h
    · rw [← h]
      simp [lookup]
    · have hk : p.1 ≠ k := by
        intro he
        exact hnd.1 (by
          rw [he]
          exact List.mem_map_of_mem (fun q => q.1) h)
      simp [lookup, hk]
      exact ih h hnd.2

theorem lookup_dictSet_self {α : Type} (d : List (String × α)) (k : String) (v : α) :
    lookup (dictSet d k v) k = some v := by
  induction d with
  | nil => simp [dictSet, lookup]
  | cons p rest ih =>
    by_cases h : p.1 = k <;> simp [dictSet, lookup, h, ih]

theorem lookup_dictSet_ne {α : Type} (d : List (String × α)) {k k' : String} (v : α)
    (h : k' ≠ k) : lookup (dictSet d k v) k' = lookup d k' := by
  induction d with
  | nil => simp [dictSet, lookup, Ne.symm h]
  | cons p rest ih =>
    by_cases hp : p.1 = k
    · subst hp
      simp [dictSet, lookup, Ne.symm h]
    · by_cases hp' : p.1 = k' <;> simp [dictSet, lookup, hp, hp', h, ih]

theorem dictSet_eq_append {α : Type} {d : List (String × α)} {k : String} (v : α)
    (h : containsKey d k = false) : dictSet d k v = d ++ [(k, v)] := by
  induction d with
  | nil => simp [dictSet]
  | cons p rest ih =>
    simp only [containsKey, Bool.or_eq_false_iff] at h
    have : ¬ p.1 = k := by
      intro he
      simp [he] at h
    simp [dictSet, this, ih h.2]

theorem keysOf_dictModify {α : Type} (d : List (String × α)) (k : String) (f : α → α) :
    keysOf (dictModify d k f) = keysOf d := by
  induction d with
  | nil => rfl
  | cons p rest ih =>
    by_cases h : p.1 = k
    · simp [dictModify, keysOf, h]
    · simp only [dictModify, h, if_false, keysOf, List.map_cons, List.cons.injEq, true_and]
      simpa [keysOf] using ih

theorem lookup_dictModify_self {α : Type} (d : List (String × α)) (k : String) (f : α → α) :
    lookup (dictModify d k f) k = (lookup d k).map f := by
  induction d with
  | nil => simp [dictModify, lookup]
  | cons p rest ih =>
    by_cases h : p.1 = k <;> simp [dictModify, lookup, h, ih]

theorem lookup_dictModify_ne {α : Type} (d : List (String × α)) {k k' : String}
    (f : α → α) (h : k' ≠ k) : lookup (dictModify d k f) k' = lookup d k' := by
  induction d with
  | nil => simp [dictModify, lookup]
  | cons p rest ih =>
    by_cases hp : p.1 = k
    · subst hp
      simp [dictModify, lookup, Ne.symm h]
    · by_cases hp' : p.1 = k' <;> simp [dictModify, lookup, hp, hp', h, ih]

theorem containsKey_dictModify {α : Type} (d : List (String × α)) (k k' : String)
    (f : α → α) : containsKey (dictModify d k f) k' = containsKey d k' := by
  induction d with
  | nil => rfl
  | cons p rest ih =>
    by_cases h : p.1 = k <;> simp [dictModify, containsKey, h, ih]

theorem mem_valuesOf {α : Type} {d : List (String × α)} {v : α} :
    v ∈ valuesOf d ↔ ∃ k, (k, v) ∈ d := by
  constructor
  · intro h
    rcases List.mem_map.mp h with ⟨⟨a, b⟩, hp, he⟩
    simp only at he
    exact ⟨a, he ▸ hp⟩
  · rintro ⟨k, hk⟩
    exact List.mem_map.mpr ⟨(k, v), hk, rfl⟩


/-! ## Lemmas: decimal numerals -/

theorem digitVal_digitChar {d : Nat} (h : d < 10) : digitVal (Nat.digitChar d) = d := by
  interval_cases d <;> rfl

theorem toDigitsCore_append (fuel : Nat) : ∀ (n : Nat) (ds : List Char),
    Nat.toDigitsCore 10 fuel n ds = Nat.toDigitsCore 10 fuel n [] ++ ds := by
  induction fuel with
  | zero => intro n ds; simp [Nat.toDigitsCore]
  | succ f ih =>
    intro n ds
    simp only [Nat.toDigitsCore]
    by_cases h : n / 10 = 0
    · simp [h]
    · simp only [h, if_false]
      rw [ih (n / 10) (Nat.digitChar (n % 10) :: ds), ih (n / 10) [Nat.digitChar (n % 10)]]
      simp

theorem strVal_toDigitsCore (fuel : Nat) : ∀ n : Nat, n < 10 ^ fuel →
    strVal (Nat.toDigitsCore 10 fuel n []) = n := by
  induction fuel with
  | zero => intro n h; interval_cases n; simp [Nat.toDigitsCore, strVal]
  | succ f ih =>
    intro n h
    simp only [Nat.toDigitsCore]
    by_cases h0 : n / 10 = 0
    · have hn : n < 10 := by omega
      simp [h0, strVal, Nat.mod_eq_of_lt hn, digitVal_digitChar hn]
    · simp only [h0, if_false]
      rw [toDigitsCore_append]
      have hdiv : n / 10 < 10 ^ f := by
        rw [Nat.div_lt_iff_lt_mul (by norm_num)]
        calc n < 10 ^ (f + 1) := h
        _ = 10 ^ f * 10 := by ring
      have := ih (n / 10) hdiv
      simp only [strVal, List.foldl_append] at *
      rw [this]
      simp [digitVal_digitChar (Nat.mod_lt n (by norm_num))]
      omega

theorem natToString_injective {m n : Nat} (h : toString m = toString n) : m = n := by
  have hm : toString m = (Nat.toDigits 10 m).asString := rfl
  have hn : toString n = (Nat.toDigits 10 n).asString := rfl
  rw [hm, hn, List.asString_inj] at h
  have vm := strVal_toDigitsCore (m + 1) m
    (lt_trans (Nat.lt_pow_self (by norm_num) m) (Nat.pow_lt_pow_succ (by norm_num)))
  have vn := strVal_toDigitsCore (n + 1) n
    (lt_trans (Nat.lt_pow_self (by norm_num) n) (Nat.pow_lt_pow_succ (by norm_num)))
  unfold Nat.toDigits at h
  rw [h] at vm
  rw [vn] at vm
  exact vm.symm

/-! ## Lemmas: engine operations -/

theorem update_status_only (s : TaskList) (id st now : String)
    (hc : containsKey s.tasks id = true) (hst : ¬ st = "") :
    s.update id (some st) none none none none none now =
      Except.ok ({ s with tasks := dictModify s.tasks id (fun t =>
          let t1 := { t with status := st }
          if st = "completed" then { t1 with completed_at := some now } else t1) },
        (lookup (dictModify s.tasks id (fun t =>
          let t1 := { t with status := st }
          if st = "completed" then { t1 with completed_at := some now } else t1)) id).getD
          defaultTask) := by
  simp [TaskList.update, hc, truthyS, truthyL, hst]

theorem mem_list_available_iff (s : TaskList) (t : Task) :
    t ∈ s.list_available ↔
      t ∈ valuesOf s.tasks ∧ ¬ t.status = "completed" ∧
      ∀ d ∈ t.blocked_by, depStatus s d = "completed" := by
  simp [TaskList.list_available, List.mem_filter, List.all_eq_true, and_assoc]

theorem lookup_id_of_mem_values {s : TaskList} {t : Task}
    (hkm : KeysMatch s) (hnd : KeysNodup s) (h : t ∈ valuesOf s.tasks) :
    lookup s.tasks t.id = some t := by
  rcases mem_valuesOf.mp h with ⟨k, hk⟩
  have : t.id = k := hkm (k, t) hk
  rw [this]
  exact lookup_eq_some_of_mem hk hnd

theorem create_fold_lookup (tid : String) (bb : List String) :
    ∀ (d : TaskDict) (k : String), ∃ L : List String,
      lookup (bb.foldl (fun d dep =>
        if containsKey d dep then
          dictModify d dep (fun u => { u with blocks := u.blocks ++ [tid] })
        else d) d) k =
      (lookup d k).map (fun u => { u with blocks := u.blocks ++ L }) := by
  induction bb with
  | nil =>
    intro d k
    refine ⟨[], ?_⟩
    cases h : lookup d k <;> simp [h]
  | cons dep rest ih =>
    intro d k
    simp only [List.foldl_cons]
    rcases ih (if containsKey d dep then
        dictModify d dep (fun u => { u with blocks := u.blocks ++ [tid] })
      else d) k with ⟨L, hL⟩
    by_cases hc : containsKey d dep
    · by_cases hk : k = dep
      · subst hk
        refine ⟨[tid] ++ L, ?_⟩
        rw [hL]
        simp only [hc, if_true, lookup_dictModify_self]
        cases h : lookup d k <;> simp [h]
      · refine ⟨L, ?_⟩
        rw [hL]
        simp only [hc, if_true, lookup_dictModify_ne _ _ hk]
    · refine ⟨L, ?_⟩
      rw [hL]
      simp [hc]

theorem create_effects (s : TaskList) (subject description af : String)
    (bb : Option (List String)) (now : String) :
    (s.create subject description af bb now).1.next_id = s.next_id + 1 ∧
    ((s.create subject description af bb now).2.id = toString s.next_id ∧
     (s.create subject description af bb now).2.status = "pending" ∧
     (s.create subject description af bb now).2.blocked_by = bb.getD []) ∧
    lookup (s.create subject description af bb now).1.tasks (toString s.next_id) =
      some (s.create subject description af bb now).2 ∧
    (∀ d, ¬ d = toString s.next_id → lookup s.tasks d = none →
      lookup (s.create subject description af bb now).1.tasks d = none) := by
  have hbb : (match bb with | none => [] | some l => l) = bb.getD [] := by
    cases bb <;> rfl
  simp only [TaskList.create, hbb]
  rcases create_fold_lookup (toString s.next_id) (bb.getD [])
    (dictSet s.tasks (toString s.next_id)
      { id := toString s.next_id, subject := subject, description := description,
        status := "pending",
        active_form := if af = "" then "Working on: " ++ subject else af,
        owner := none, blocked_by := bb.getD [], blocks := [],
        created_at := now, completed_at := none, metadata := [] })
    (toString s.next_id) with ⟨L, hL⟩
  rw [hL, lookup_dictSet_self]
  refine ⟨trivial, ⟨by simp, by simp, by simp⟩, by simp, ?_⟩
  intro d hne hnone
  rcases create_fold_lookup (toString s.next_id) (bb.getD [])
    (dictSet s.tasks (toString s.next_id)
      { id := toString s.next_id, subject := subject, description := description,
        status := "pending",
        active_form := if af = "" then "Working on: " ++ subject else af,
        owner := none, blocked_by := bb.getD [], blocks := [],
        created_at := now, completed_at := none, metadata := [] })
    d with ⟨L', hL'⟩
  rw [hL', lookup_dictSet_ne _ _ hne, hnone]
  rfl

/-! ## Lemmas: persistence -/

theorem jStrList?_roundtrip (l : List String) :
    jStrList? (Json.arr (l.map Json.str)) = some l := by
  induction l with
  | nil => rfl
  | cons a rest ih =>
    simp only [jStrList?] at ih ⊢
    rw [List.map_cons, List.foldr_cons, ih]
    rfl

theorem jStrMap?_roundtrip (l : List (String × String)) :
    jStrMap? (Json.obj (l.map (fun p => (p.1, Json.str p.2)))) = some l := by
  induction l with
  | nil => rfl
  | cons a rest ih =>
    simp only [jStrMap?] at ih ⊢
    rw [List.map_cons, List.foldr_cons, ih]
    rfl

theorem jOptStr?_roundtrip (o : Option String) :
    jOptStr? (optStrToJson o) = some o := by
  cases o <;> rfl

theorem taskFromJson_taskToJson (now : String) (t : Task) :
    taskFromJson now (taskToJson t) = some t := by
  simp only [taskToJson, taskFromJson, lookup, taskFieldNames]
  simp [jStr?, jOptStr?_roundtrip, jStrList?_roundtrip, jStrMap?_roundtrip]

theorem loadTasks_roundtrip (now : String) :
    ∀ (l : TaskDict) (acc : TaskDict) (nid : Nat),
      (∀ p ∈ l, Task.id p.2 = p.1) →
      (keysOf (acc ++ l)).Nodup →
      ∃ nid', loadTasks now ((valuesOf l).map taskToJson) acc nid = some (acc ++ l, nid') := by
  intro l
  induction l with
  | nil =>
    intro acc nid _ _
    exact ⟨nid, by simp [valuesOf, loadTasks]⟩
  | cons p rest ih =>
    intro acc nid hkm hnd
    obtain ⟨k, t⟩ := p
    have hid : t.id = k := hkm (k, t) (List.mem_cons_self _ _)
    simp only [valuesOf, List.map_cons, loadTasks, taskFromJson_taskToJson]
    have hfresh : containsKey acc t.id = false := by
      rw [containsKey_false_iff, hid]
      intro hmem
      rw [keysOf, List.map_append] at hnd
      have hdisj := (List.nodup_append.mp hnd).2.2
      exact hdisj hmem (by simp)
    rw [dictSet_eq_append _ hfresh, hid]
    have hkm' : ∀ q ∈ rest, Task.id q.2 = q.1 :=
      fun q hq => hkm q (List.mem_cons_of_mem _ hq)
    have hnd' : (keysOf ((acc ++ [(k, t)]) ++ rest)).Nodup := by
      have : (acc ++ [(k, t)]) ++ rest = acc ++ ((k, t) :: rest) := by simp
      rw [this]
      exact hnd
    rcases ih (acc ++ [(k, t)]) (match t.id.toNat? with
      | some m => max nid (m + 1)
      | none => nid) hkm' hnd' with ⟨nid', hload⟩
    refine ⟨nid', ?_⟩
    rw [hid] at hload
    simp only [valuesOf] at hload ⊢
    rw [hload]
    simp

/-! ## Lemmas: swarm coordinator -/

theorem update_in_progress (s : TaskList) (id now : String)
    (hc : containsKey s.tasks id = true) :
    ∃ t', s.update id (some "in_progress") none none none none none now =
      Except.ok ({ s with tasks := dictModify s.tasks id (fun u => { u with status := "in_progress" }) }, t') := by
  have hf : (fun t : Task =>
      let t1 := { t with status := "in_progress" }
      if ("in_progress" : String) = "completed" then { t1 with completed_at := some now }
      else t1) = (fun u : Task => { u with status := "in_progress" }) := by
    funext u
    simp
  rw [update_status_only s id "in_progress" now hc (by decide), hf]
  exact ⟨_, rfl⟩

theorem update_completed (s : TaskList) (id now : String)
    (hc : containsKey s.tasks id = true) :
    ∃ t', s.update id (some "completed") none none none none none now =
      Except.ok ({ s with tasks := dictModify s.tasks id (fun u => { u with status := "completed", completed_at := some now }) }, t') := by
  have hf : (fun t : Task =>
      let t1 := { t with status := "completed" }
      if ("completed" : String) = "completed" then { t1 with completed_at := some now }
      else t1) = (fun u : Task => { u with status := "completed", completed_at := some now }) := by
    funext u
    simp
  rw [update_status_only s id "completed" now hc (by decide), hf]
  exact ⟨_, rfl⟩

theorem keysMatch_dictModify {d : TaskDict} {k : String} {f : Task → Task}
    (hf : ∀ v, Task.id (f v) = Task.id v) (h : ∀ p ∈ d, Task.id p.2 = p.1) :
    ∀ p ∈ dictModify d k f, Task.id p.2 = p.1 := by
  induction d with
  | nil => intro p hp; simp [dictModify] at hp
  | cons q rest ih =>
    intro p hp
    by_cases hq : q.1 = k
    · rw [dictModify, if_pos hq] at hp
      rcases List.mem_cons.mp hp with h1 | h1
      · rw [h1]
        simp only [hf]
        exact h q (List.mem_cons_self _ _)
      · exact h p (List.mem_cons_of_mem _ h1)
    · rw [dictModify, if_neg hq] at hp
      rcases List.mem_cons.mp hp with h1 | h1
      · rw [h1]
        exact h q (List.mem_cons_self _ _)
      · exact ih (fun r hr => h r (List.mem_cons_of_mem _ hr)) p h1

theorem valuesIds_eq_keys {d : TaskDict} (h : ∀ p ∈ d, Task.id p.2 = p.1) :
    (valuesOf d).map Task.id = keysOf d := by
  induction d with
  | nil => rfl
  | cons q rest ih =>
    simp only [valuesOf, keysOf, List.map_cons]
    rw [List.cons.injEq]
    constructor
    · exact h q (List.mem_cons_self _ _)
    · have := ih (fun p hp => h p (List.mem_cons_of_mem _ hp))
      simpa [valuesOf, keysOf] using this

theorem filterLen_dictModify_eq (p : Task → Bool) :
    ∀ (d : TaskDict) (k : String) (f : Task → Task) (v : Task),
      lookup d k = some v → p (f v) = p v →
      ((valuesOf (dictModify d k f)).filter p).length =
        ((valuesOf d).filter p).length := by
  intro d
  induction d with
  | nil => intro k f v hv _; simp [lookup] at hv
  | cons q rest ih =>
    intro k f v hv hp
    by_cases hq : q.1 = k
    · rw [lookup, if_pos hq] at hv
      injection hv with hv
      simp only [dictModify, if_pos hq, valuesOf, List.map_cons]
      rw [List.filter_cons, List.filter_cons, hv, hp]
      cases hpc : p v <;> simp [hpc]
    · rw [lookup, if_neg hq] at hv
      simp only [dictModify, if_neg hq, valuesOf, List.map_cons]
      rw [List.filter_cons, List.filter_cons]
      have hrec := ih k f v hv hp
      simp only [valuesOf] at hrec
      cases hpc : p q.2 <;> simp [hpc, hrec]

theorem filterLen_dictModify_dec (p : Task → Bool) :
    ∀ (d : TaskDict) (k : String) (f : Task → Task) (v : Task),
      lookup d k = some v → p v = true → p (f v) = false →
      ((valuesOf (dictModify d k f)).filter p).length + 1 =
        ((valuesOf d).filter p).length := by
  intro d
  induction d with
  | nil => intro k f v hv _ _; simp [lookup] at hv
  | cons q rest ih =>
    intro k f v hv hpv hpf
    by_cases hq : q.1 = k
    · rw [lookup, if_pos hq] at hv
      injection hv with hv
      simp only [dictModify, if_pos hq, valuesOf, List.map_cons]
      rw [List.filter_cons, List.filter_cons, hv, hpv, hpf]
      simp
    · rw [lookup, if_neg hq] at hv
      simp only [dictModify, if_neg hq, valuesOf, List.map_cons]
      rw [List.filter_cons, List.filter_cons]
      have hrec := ih k f v hv hpv hpf
      simp only [valuesOf] at hrec
      cases hpc : p q.2 <;> simp [hpc] <;> omega

theorem markWave_ok (now : String) :
    ∀ (l : List Task) (tl : TaskList),
      (∀ t ∈ l, ∃ v, lookup tl.tasks t.id = some v ∧ ¬ v.status = "completed") →
      (∀ p ∈ tl.tasks, Task.id p.2 = p.1) →
      ∃ tl', markWave now l tl = Except.ok tl' ∧
        keysOf tl'.tasks = keysOf tl.tasks ∧
        (∀ k, ¬ k ∈ l.map Task.id → lookup tl'.tasks k = lookup tl.tasks k) ∧
        (∀ k, k ∈ l.map Task.id → lookup tl'.tasks k =
            (lookup tl.tasks k).map (fun u => { u with status := "in_progress" })) ∧
        nonCompletedCount tl' = nonCompletedCount tl ∧
        (∀ p ∈ tl'.tasks, Task.id p.2 = p.1) := by
  intro l
  induction l with
  | nil =>
    intro tl _ hkm
    exact ⟨tl, rfl, rfl, fun k _ => rfl, fun k hk => absurd hk (by simp), rfl, hkm⟩
  | cons t rest ih =>
    intro tl hex hkm
    rcases hex t (List.mem_cons_self _ _) with ⟨v, hv, hvnc⟩
    have hc : containsKey tl.tasks t.id = true :=
      (containsKey_iff_lookup _ _).mpr ⟨v, hv⟩
    rcases update_in_progress tl t.id now hc with ⟨tret, hupd⟩
    set d1 := dictModify tl.tasks t.id (fun u => { u with status := "in_progress" }) with hd1
    have hlook1 : ∀ k, lookup d1 k =
        if k = t.id then (lookup tl.tasks k).map (fun u => { u with status := "in_progress" })
        else lookup tl.tasks k := by
      intro k
      by_cases hk : k = t.id
      · rw [if_pos hk, hd1, hk]
        exact lookup_dictModify_self _ _ _
      · rw [if_neg hk, hd1]
        exact lookup_dictModify_ne _ _ hk
    have hex1 : ∀ u ∈ rest, ∃ w, lookup d1 u.id = some w ∧
        ¬ w.status = "completed" := by
      intro u hu
      rcases hex u (List.mem_cons_of_mem _ hu) with ⟨w, hw, hwnc⟩
      rw [hlook1 u.id]
      by_cases hk : u.id = t.id
      · rw [if_pos hk, hw]
        exact ⟨_, rfl, by simp⟩
      · rw [if_neg hk, hw]
        exact ⟨w, rfl, hwnc⟩
    have hkm1 : ∀ p ∈ d1, Task.id p.2 = p.1 :=
      keysMatch_dictModify (fun _ => rfl) hkm
    rcases ih { tl with tasks := d1 } hex1 hkm1 with
      ⟨tl', hmk, hkeys, hout, hin, hcnt, hkm'⟩
    refine ⟨tl', ?_, ?_, ?_, ?_, ?_, hkm'⟩
    · rw [markWave, hupd]
      exact hmk
    · rw [hkeys, hd1]
      exact keysOf_dictModify _ _ _
    · intro k hk
      simp only [List.map_cons, List.mem_cons, not_or] at hk
      rw [hout k hk.2, hlook1 k, if_neg hk.1]
    · intro k hk
      simp only [List.map_cons, List.mem_cons] at hk
      by_cases hkr : k ∈ rest.map Task.id
      · rw [hin k hkr, hlook1 k]
        by_cases hkt : k = t.id
        · rw [if_pos hkt]
          cases hvv : lookup tl.tasks k <;> rfl
        · rw [if_neg hkt]
      · have hkt : k = t.id := by
          rcases hk with h1 | h1
          · exact h1
          · exact absurd h1 hkr
        rw [hout k hkr, hlook1 k, if_pos hkt, hkt]
    · rw [hcnt]
      show nonCompletedCount _ = nonCompletedCount tl
      unfold nonCompletedCount TaskList.list_all
      rw [hd1]
      exact filterLen_dictModify_eq _ tl.tasks t.id _ v hv (by simp_all)

theorem runWave_first_fails (execf : Executor) (now : String) (t : Task) (ctx : String)
    (rest : List (Task × String)) (st : SwarmState) (e : String)
    (hfail : execf t ctx = Except.error e) :
    runWave execf now ((t, ctx) :: rest) st = (st, Except.error e) := by
  rw [runWave, hfail]

theorem available_mem_lookup {s : TaskList} {t : Task}
    (hkm : KeysMatch s) (hnd : KeysNodup s) (h : t ∈ s.list_available) :
    lookup s.tasks t.id = some t ∧ ¬ t.status = "completed" := by
  rcases (mem_list_available_iff s t).mp h with ⟨hv, hs, _⟩
  exact ⟨lookup_id_of_mem_values hkm hnd hv, hs⟩

theorem available_ids_nodup {s : TaskList} (hkm : KeysMatch s) (hnd : KeysNodup s) :
    ((s.list_available).map Task.id).Nodup := by
  have hsub : List.Sublist (s.list_available) (valuesOf s.tasks) := List.filter_sublist _
  have hsub2 : List.Sublist ((s.list_available).map Task.id)
      ((valuesOf s.tasks).map Task.id) := hsub.map _
  rw [valuesIds_eq_keys hkm] at hsub2
  exact List.Nodup.sublist hsub2 hnd

theorem runWave_count (execf : Executor) (now : String) :
    ∀ (pairs : List (Task × String)) (st st' : SwarmState) (ids : List String),
      (∀ q ∈ pairs, ∃ v, lookup st.tasks.tasks (Task.id q.1) = some v ∧
        ¬ v.status = "completed") →
      (pairs.map (fun q => Task.id q.1)).Nodup →
      (∀ p ∈ st.tasks.tasks, Task.id p.2 = p.1) →
      runWave execf now pairs st = (st', Except.ok ids) →
      nonCompletedCount st'.tasks + ids.length = nonCompletedCount st.tasks ∧
      keysOf st'.tasks.tasks = keysOf st.tasks.tasks ∧
      (∀ p ∈ st'.tasks.tasks, Task.id p.2 = p.1) := by
  intro pairs
  induction pairs with
  | nil =>
    intro st st' ids _ _ hkm heq
    rw [runWave] at heq
    simp only [Prod.mk.injEq] at heq
    obtain ⟨h1, h2⟩ := heq
    injection h2 with h2
    subst h1
    subst h2
    exact ⟨by simp, rfl, hkm⟩
  | cons q rest ih =>
    intro st st' ids hex hnd hkm heq
    obtain ⟨t, ctx⟩ := q
    rw [runWave] at heq
    cases hexe : execf t ctx with
    | error e =>
      rw [hexe] at heq
      simp at heq
    | ok r =>
      rw [hexe] at heq
      dsimp only at heq
      rcases hex (t, ctx) (List.mem_cons_self _ _) with ⟨v, hv, hvnc⟩
      have hc : containsKey st.tasks.tasks t.id = true :=
        (containsKey_iff_lookup _ _).mpr ⟨v, hv⟩
      rcases update_completed st.tasks t.id now hc with ⟨tret, hupd⟩
      rw [hupd] at heq
      dsimp only at heq
      rcases hres : runWave execf now rest { tasks := { st.tasks with tasks := dictModify st.tasks.tasks t.id (fun u => { u with status := "completed", completed_at := some now }) }, results := st.results ++ [(t.id, r)] } with ⟨st2', out⟩
      rw [hres] at heq
      simp only [Prod.mk.injEq] at heq
      obtain ⟨h1, h2⟩ := heq
      cases out with
      | error e => simp [Except.map] at h2
      | ok ids' =>
        simp only [Except.map] at h2
        injection h2 with h2
        have hdup : ¬ Task.id t ∈ rest.map (fun q => Task.id q.1) := by
          have hx := hnd
          simp only [List.map_cons, List.nodup_cons] at hx
          exact hx.1
        have hex2 : ∀ q' ∈ rest, ∃ w, lookup (dictModify st.tasks.tasks t.id (fun u => { u with status := "completed", completed_at := some now })) (Task.id q'.1) = some w ∧ ¬ w.status = "completed" := by
          intro q' hq'
          rcases hex q' (List.mem_cons_of_mem _ hq') with ⟨w, hw, hwnc⟩
          have hne : Task.id q'.1 ≠ Task.id t := by
            intro hcontra
            exact hdup (hcontra ▸ List.mem_map_of_mem (fun q => Task.id q.1) hq')
          rw [lookup_dictModify_ne _ _ hne, hw]
          exact ⟨w, rfl, hwnc⟩
        have hkm2 : ∀ p ∈ dictModify st.tasks.tasks t.id (fun u => { u with status := "completed", completed_at := some now }), Task.id p.2 = p.1 := keysMatch_dictModify (fun _ => rfl) hkm
        have hnd2 : (rest.map (fun q => Task.id q.1)).Nodup := by
          have hx := hnd
          simp only [List.map_cons, List.nodup_cons] at hx
          exact hx.2
        rcases ih _ st2' ids' hex2 hnd2 hkm2 hres with ⟨hcnt, hkeys, hkmf⟩
        have hdec : nonCompletedCount ({ st.tasks with tasks := dictModify st.tasks.tasks t.id (fun u => { u with status := "completed", completed_at := some now }) } : TaskList) + 1 = nonCompletedCount st.tasks := by
          unfold nonCompletedCount TaskList.list_all
          exact filterLen_dictModify_dec _ st.tasks.tasks t.id _ v hv (by simp_all) (by simp)
        subst h1
        subst h2
        refine ⟨?_, ?_, hkmf⟩
        · simp only [List.length_cons]
          dsimp only at hcnt hdec
          omega
        · rw [hkeys]
          exact keysOf_dictModify _ _ _

theorem executeAvailable_ok (execf : Executor) (now : String) (st st' : SwarmState)
    (ids : List String) (hkm : KeysMatch st.tasks) (hnd : KeysNodup st.tasks)
    (heq : executeAvailable execf now st = (st', Except.ok ids)) :
    nonCompletedCount st'.tasks + ids.length = nonCompletedCount st.tasks ∧
    KeysMatch st'.tasks ∧ KeysNodup st'.tasks := by
  rw [executeAvailable] at heq
  dsimp only at heq
  by_cases hav : (st.tasks.list_available).isEmpty
  · rw [if_pos hav] at heq
    simp only [Prod.mk.injEq] at heq
    obtain ⟨h1, h2⟩ := heq
    injection h2 with h2
    subst h1
    subst h2
    exact ⟨by simp, hkm, hnd⟩
  · rw [if_neg hav] at heq
    have hexm : ∀ t ∈ st.tasks.list_available, ∃ v,
        lookup st.tasks.tasks t.id = some v ∧ ¬ v.status = "completed" := by
      intro t ht
      rcases available_mem_lookup hkm hnd ht with ⟨h1, h2⟩
      exact ⟨t, h1, h2⟩
    rcases markWave_ok now (st.tasks.list_available) st.tasks hexm hkm with
      ⟨tl1, hmk, hkeys1, hout1, hin1, hcnt1, hkm1⟩
    rw [hmk] at heq
    dsimp only at heq
    have hexr : ∀ q ∈ (st.tasks.list_available).map
        (fun t => (t, get_dependency_context { st with tasks := tl1 } t.id)),
        ∃ v, lookup ({ st with tasks := tl1 } : SwarmState).tasks.tasks (Task.id q.1) = some v ∧
          ¬ v.status = "completed" := by
      intro q hq
      rcases List.mem_map.mp hq with ⟨u, hu, hue⟩
      rcases available_mem_lookup hkm hnd hu with ⟨hlu, _⟩
      have hid : Task.id q.1 = u.id := by rw [← hue]
      rw [hid, hin1 u.id (List.mem_map_of_mem _ hu), hlu]
      exact ⟨_, rfl, by simp⟩
    have hndr : (((st.tasks.list_available).map
        (fun t => (t, get_dependency_context { st with tasks := tl1 } t.id))).map
          (fun q => Task.id q.1)).Nodup := by
      rw [List.map_map]
      exact available_ids_nodup hkm hnd
    rcases runWave_count execf now _ _ st' ids hexr hndr hkm1 heq with ⟨hcnt, hkeys, hkmf⟩
    dsimp only at hcnt hkeys
    refine ⟨by rw [hcnt]; exact hcnt1, hkmf, ?_⟩
    show (keysOf st'.tasks.tasks).Nodup
    rw [hkeys, hkeys1]
    exact hnd

theorem runLoop_terminates_aux (execf : Executor) (now : String) :
    ∀ n : Nat, ∀ st : SwarmState, ∀ fuel : Nat,
      KeysMatch st.tasks → KeysNodup st.tasks →
      nonCompletedCount st.tasks ≤ n → n + 1 ≤ fuel →
      ¬ runLoop execf now fuel st = none := by
  intro n
  induction n with
  | zero =>
    intro st fuel hkm hnd hcnt hfuel
    cases fuel with
    | zero => omega
    | succ f =>
      rw [runLoop]
      have hzero : (st.tasks.list_all.filter (fun t => !(t.status == "completed"))).length = 0 := by
        have := hcnt
        unfold nonCompletedCount at this
        omega
      rw [List.length_eq_zero] at hzero
      rw [hzero]
      simp
  | succ n ih =>
    intro st fuel hkm hnd hcnt hfuel
    cases fuel with
    | zero => omega
    | succ f =>
      rw [runLoop]
      by_cases hpend : (st.tasks.list_all.filter (fun t => !(t.status == "completed"))).isEmpty
      · rw [if_pos hpend]
        simp
      · rw [if_neg hpend]
        rcases hea : executeAvailable execf now st with ⟨st', out⟩
        cases out with
        | error e => simp
        | ok completed =>
          dsimp only
          by_cases hcomp : completed.isEmpty
          · rw [if_pos hcomp]
            simp
          · rw [if_neg hcomp]
            rcases executeAvailable_ok execf now st st' completed hkm hnd hea with
              ⟨hc, hkm', hnd'⟩
            have hlen : 1 ≤ completed.length := by
              cases completed with
              | nil => simp at hcomp
              | cons a as => simp
            exact ih st' f hkm' hnd' (by omega) (by omega)

/-! ## Lemmas: edge symmetry invariant -/

theorem nodup_of_keysOf_eq {d D' : TaskDict} (h : keysOf D' = keysOf d)
    (hnd : (keysOf d).Nodup) : (keysOf D').Nodup := by
  rw [h]
  exact hnd

theorem edge_step_transfer (d D' : TaskDict) (u v : String)
    (hkeys : keysOf D' = keysOf d)
    (hnd : (keysOf d).Nodup)
    (hA : DEdgeSymA d) (hB : DEdgeSymB d)
    (hback : ∀ k w, lookup D' k = some w → ∃ w0, lookup d k = some w0 ∧
      (∀ x ∈ w.blocked_by, x ∈ w0.blocked_by ∨ (k = u ∧ x = v)) ∧
      (∀ x ∈ w.blocks, x ∈ w0.blocks ∨ (k = v ∧ x = u)))
    (hfwd : ∀ k w0, lookup d k = some w0 → ∃ w, lookup D' k = some w ∧
      (∀ x ∈ w0.blocked_by, x ∈ w.blocked_by) ∧ (∀ x ∈ w0.blocks, x ∈ w.blocks))
    (hu : ∃ wu, lookup D' u = some wu ∧ v ∈ wu.blocked_by)
    (hv : ∃ wv, lookup D' v = some wv ∧ u ∈ wv.blocks) :
    DEdgeSymA D' ∧ DEdgeSymB D' := by
  constructor
  · intro p hp x hx
    have hlp : lookup D' p.1 = some p.2 := by
      obtain ⟨a, b⟩ := p
      exact lookup_eq_some_of_mem hp (nodup_of_keysOf_eq hkeys hnd)
    rcases hback p.1 p.2 hlp with ⟨w0, hw0, hbb, _⟩
    rcases hbb x hx with hold | hnew
    · rcases hA (p.1, w0) (mem_of_lookup_eq_some hw0) x hold with ⟨td0, htd0, hmem0⟩
      rcases hfwd x td0 htd0 with ⟨td, htd, _, hsup⟩
      exact ⟨td, htd, hsup p.1 hmem0⟩
    · rcases hv with ⟨wv, hwv, hmemv⟩
      rw [hnew.2]
      exact ⟨wv, hwv, hnew.1 ▸ hmemv⟩
  · intro p hp x hx
    have hlp : lookup D' p.1 = some p.2 := by
      obtain ⟨a, b⟩ := p
      exact lookup_eq_some_of_mem hp (nodup_of_keysOf_eq hkeys hnd)
    rcases hback p.1 p.2 hlp with ⟨w0, hw0, _, hbk⟩
    rcases hbk x hx with hold | hnew
    · rcases hB (p.1, w0) (mem_of_lookup_eq_some hw0) x hold with ⟨tb0, htb0, hmem0⟩
      rcases hfwd x tb0 htb0 with ⟨tb, htb, hsup, _⟩
      exact ⟨tb, htb, hsup p.1 hmem0⟩
    · rcases hu with ⟨wu, hwu, hmemu⟩
      rw [hnew.2]
      exact ⟨wu, hwu, hnew.1 ▸ hmemu⟩

theorem inv_dictModify_nonedge {d : TaskDict} {k : String} {f : Task → Task}
    (hid : ∀ w, Task.id (f w) = Task.id w)
    (hbb : ∀ w, Task.blocked_by (f w) = Task.blocked_by w)
    (hbk : ∀ w, Task.blocks (f w) = Task.blocks w)
    (hkm : DKeysMatch d) (hnd : (keysOf d).Nodup)
    (hA : DEdgeSymA d) (hB : DEdgeSymB d) :
    DKeysMatch (dictModify d k f) ∧ DEdgeSymA (dictModify d k f) ∧
      DEdgeSymB (dictModify d k f) := by
  have hkm' : DKeysMatch (dictModify d k f) := keysMatch_dictModify hid hkm
  have lback : ∀ k' w, lookup (dictModify d k f) k' = some w → ∃ w0,
      lookup d k' = some w0 ∧ w.blocked_by = w0.blocked_by ∧ w.blocks = w0.blocks := by
    intro k' w hw
    by_cases hk : k' = k
    · rw [hk, lookup_dictModify_self] at hw
      cases h0 : lookup d k with
      | none => rw [h0] at hw; exact absurd hw (by simp [Option.map])
      | some w0 =>
        rw [h0] at hw
        rw [Option.map_some'] at hw
        injection hw with hw
        rw [hk, h0]
        exact ⟨w0, rfl, by rw [← hw, hbb], by rw [← hw, hbk]⟩
    · rw [lookup_dictModify_ne _ _ hk] at hw
      exact ⟨w, hw, rfl, rfl⟩
  have lfwd : ∀ k' w0, lookup d k' = some w0 → ∃ w,
      lookup (dictModify d k f) k' = some w ∧ w.blocked_by = w0.blocked_by ∧
        w.blocks = w0.blocks := by
    intro k' w0 hw0
    by_cases hk : k' = k
    · rw [hk, lookup_dictModify_self]
      rw [hk] at hw0
      rw [hw0]
      exact ⟨f w0, rfl, hbb w0, hbk w0⟩
    · rw [lookup_dictModify_ne _ _ hk]
      exact ⟨w0, hw0, rfl, rfl⟩
  refine ⟨hkm', ?_, ?_⟩
  · intro p hp x hx
    have hlp : lookup (dictModify d k f) p.1 = some p.2 := by
      obtain ⟨a, b⟩ := p
      exact lookup_eq_some_of_mem hp (nodup_of_keysOf_eq (keysOf_dictModify d k f) hnd)
    rcases lback p.1 p.2 hlp with ⟨w0, hw0, he1, _⟩
    rw [he1] at hx
    rcases hA (p.1, w0) (mem_of_lookup_eq_some hw0) x hx with ⟨td0, htd0, hmem0⟩
    rcases lfwd x td0 htd0 with ⟨td, htd, _, he3⟩
    exact ⟨td, htd, by rw [he3]; exact hmem0⟩
  · intro p hp x hx
    have hlp : lookup (dictModify d k f) p.1 = some p.2 := by
      obtain ⟨a, b⟩ := p
      exact lookup_eq_some_of_mem hp (nodup_of_keysOf_eq (keysOf_dictModify d k f) hnd)
    rcases lback p.1 p.2 hlp with ⟨w0, hw0, _, he2⟩
    rw [he2] at hx
    rcases hB (p.1, w0) (mem_of_lookup_eq_some hw0) x hx with ⟨tb0, htb0, hmem0⟩
    rcases lfwd x tb0 htb0 with ⟨tb, htb, he3, _⟩
    exact ⟨tb, htb, by rw [he3]; exact hmem0⟩

theorem containsKey_eq_decide {α : Type} (d : List (String × α)) (k : String) :
    containsKey d k = decide (k ∈ keysOf d) := by
  cases h : containsKey d k
  · have := (containsKey_false_iff d k).mp h
    simp [this]
  · have := (containsKey_iff_mem d k).mp h
    simp [this]

theorem containsKey_congr {α β : Type} {d1 : List (String × α)} {d2 : List (String × β)}
    (h : keysOf d1 = keysOf d2) (k : String) : containsKey d1 k = containsKey d2 k := by
  rw [containsKey_eq_decide, containsKey_eq_decide, h]

theorem inv_stage (d : TaskDict) (b : Bool) (k : String) (f : Task → Task)
    (hid : ∀ w, Task.id (f w) = Task.id w)
    (hbb : ∀ w, Task.blocked_by (f w) = Task.blocked_by w)
    (hbk : ∀ w, Task.blocks (f w) = Task.blocks w)
    (hkm : DKeysMatch d) (hnd : (keysOf d).Nodup)
    (hA : DEdgeSymA d) (hB : DEdgeSymB d) :
    keysOf (if b then dictModify d k f else d) = keysOf d ∧
    DKeysMatch (if b then dictModify d k f else d) ∧
    DEdgeSymA (if b then dictModify d k f else d) ∧
    DEdgeSymB (if b then dictModify d k f else d) := by
  by_cases hb : b = true
  · rw [hb]
    simp only [if_true]
    rcases inv_dictModify_nonedge hid hbb hbk hkm hnd hA hB with ⟨h1, h2, h3⟩
    exact ⟨keysOf_dictModify d k f, h1, h2, h3⟩
  · rw [Bool.not_eq_true] at hb
    rw [hb]
    simp only [Bool.false_eq_true, if_false]
    exact ⟨trivial, hkm, hA, hB⟩

theorem addDep_fold_inv (task_id : String) :
    ∀ (deps : List String) (d : TaskDict),
      DKeysMatch d → (keysOf d).Nodup → DEdgeSymA d → DEdgeSymB d →
      containsKey d task_id = true → (∀ x ∈ deps, containsKey d x = true) →
      keysOf (deps.foldl (fun d dep =>
        let d' := if ((lookup d task_id).getD defaultTask).blocked_by.contains dep then d
          else dictModify d task_id (fun t => { t with blocked_by := t.blocked_by ++ [dep] })
        if containsKey d' dep then
          dictModify d' dep (fun t => { t with blocks := t.blocks ++ [task_id] })
        else d') d) = keysOf d ∧
      DKeysMatch (deps.foldl (fun d dep =>
        let d' := if ((lookup d task_id).getD defaultTask).blocked_by.contains dep then d
          else dictModify d task_id (fun t => { t with blocked_by := t.blocked_by ++ [dep] })
        if containsKey d' dep then
          dictModify d' dep (fun t => { t with blocks := t.blocks ++ [task_id] })
        else d') d) ∧
      DEdgeSymA (deps.foldl (fun d dep =>
        let d' := if ((lookup d task_id).getD defaultTask).blocked_by.contains dep then d
          else dictModify d task_id (fun t => { t with blocked_by := t.blocked_by ++ [dep] })
        if containsKey d' dep then
          dictModify d' dep (fun t => { t with blocks := t.blocks ++ [task_id] })
        else d') d) ∧
      DEdgeSymB (deps.foldl (fun d dep =>
        let d' := if ((lookup d task_id).getD defaultTask).blocked_by.contains dep then d
          else dictModify d task_id (fun t => { t with blocked_by := t.blocked_by ++ [dep] })
        if containsKey d' dep then
          dictModify d' dep (fun t => { t with blocks := t.blocks ++ [task_id] })
        else d') d) := by
  intro deps
  induction deps with
  | nil =>
    intro d hkm hnd hA hB hct _
    exact ⟨rfl, hkm, hA, hB⟩
  | cons dep rest ih =>
    intro d hkm hnd hA hB hct hall
    simp only [List.foldl_cons]
    -- analyze the single step
    rcases (containsKey_iff_lookup d task_id).mp hct with ⟨ut, hut⟩
    -- the intermediate dict after the blocked_by half
    set Da := if ((lookup d task_id).getD defaultTask).blocked_by.contains dep then d
      else dictModify d task_id (fun t => { t with blocked_by := t.blocked_by ++ [dep] })
      with hDa
    have hkeysa : keysOf Da = keysOf d := by
      rw [hDa]
      by_cases hin : ((lookup d task_id).getD defaultTask).blocked_by.contains dep
      · rw [if_pos hin]
      · rw [if_neg hin]
        exact keysOf_dictModify d task_id _
    have hback_a : ∀ k w, lookup Da k = some w → ∃ w0, lookup d k = some w0 ∧
        Task.id w = Task.id w0 ∧ w.blocks = w0.blocks ∧
        (∀ x ∈ w.blocked_by, x ∈ w0.blocked_by ∨ (k = task_id ∧ x = dep)) := by
      intro k w hw
      rw [hDa] at hw
      by_cases hin : ((lookup d task_id).getD defaultTask).blocked_by.contains dep
      · rw [if_pos hin] at hw
        exact ⟨w, hw, rfl, rfl, fun x hx => Or.inl hx⟩
      · rw [if_neg hin] at hw
        by_cases hk : k = task_id
        · rw [hk, lookup_dictModify_self, hut] at hw
          rw [Option.map_some'] at hw
          injection hw with hw
          refine ⟨ut, by rw [hk, hut], by rw [← hw], by rw [← hw], ?_⟩
          intro x hx
          rw [← hw] at hx
          simp only [List.mem_append, List.mem_singleton] at hx
          rcases hx with hx | hx
          · exact Or.inl hx
          · exact Or.inr ⟨hk, hx⟩
        · rw [lookup_dictModify_ne _ _ hk] at hw
          exact ⟨w, hw, rfl, rfl, fun x hx => Or.inl hx⟩
    have hfwd_a : ∀ k w0, lookup d k = some w0 → ∃ w, lookup Da k = some w ∧
        Task.id w = Task.id w0 ∧ w.blocks = w0.blocks ∧
        (∀ x ∈ w0.blocked_by, x ∈ w.blocked_by) := by
      intro k w0 hw0
      rw [hDa]
      by_cases hin : ((lookup d task_id).getD defaultTask).blocked_by.contains dep
      · rw [if_pos hin]
        exact ⟨w0, hw0, rfl, rfl, fun x hx => hx⟩
      · rw [if_neg hin]
        by_cases hk : k = task_id
        · rw [hk, lookup_dictModify_self]
          rw [hk] at hw0
          rw [hw0, Option.map_some']
          refine ⟨_, rfl, rfl, rfl, ?_⟩
          intro x hx
          simp only [List.mem_append]
          exact Or.inl hx
        · rw [lookup_dictModify_ne _ _ hk]
          exact ⟨w0, hw0, rfl, rfl, fun x hx => hx⟩
    have hta : ∃ wt, lookup Da task_id = some wt ∧ dep ∈ wt.blocked_by := by
      rw [hDa]
      by_cases hin : ((lookup d task_id).getD defaultTask).blocked_by.contains dep
      · rw [if_pos hin]
        refine ⟨ut, hut, ?_⟩
        rw [hut] at hin
        simpa using hin
      · rw [if_neg hin]
        rw [lookup_dictModify_self, hut, Option.map_some']
        exact ⟨_, rfl, by simp⟩
    have hkma : DKeysMatch Da := by
      rw [hDa]
      by_cases hin : ((lookup d task_id).getD defaultTask).blocked_by.contains dep
      · rw [if_pos hin]; exact hkm
      · rw [if_neg hin]
        exact keysMatch_dictModify (fun _ => rfl) hkm
    -- the second half: append the reverse blocks edge
    have hcda : containsKey Da dep = true := by
      rw [containsKey_congr hkeysa]
      exact hall dep (List.mem_cons_self _ _)
    rcases (containsKey_iff_lookup Da dep).mp hcda with ⟨ud, hud⟩
    set D1 := if containsKey Da dep then
        dictModify Da dep (fun t => { t with blocks := t.blocks ++ [task_id] })
      else Da with hD1
    have hD1e : D1 = dictModify Da dep (fun t => { t with blocks := t.blocks ++ [task_id] }) := by
      rw [hD1, if_pos hcda]
    have hkeys1 : keysOf D1 = keysOf d := by
      rw [hD1e, keysOf_dictModify]
      exact hkeysa
    have hkm1 : DKeysMatch D1 := by
      rw [hD1e]
      exact keysMatch_dictModify (fun _ => rfl) hkma
    have hback1 : ∀ k w, lookup D1 k = some w → ∃ w0, lookup d k = some w0 ∧
        (∀ x ∈ w.blocked_by, x ∈ w0.blocked_by ∨ (k = task_id ∧ x = dep)) ∧
        (∀ x ∈ w.blocks, x ∈ w0.blocks ∨ (k = dep ∧ x = task_id)) := by
      intro k w hw
      rw [hD1e] at hw
      by_cases hk : k = dep
      · rw [hk, lookup_dictModify_self, hud, Option.map_some'] at hw
        injection hw with hw
        rcases hback_a dep ud hud with ⟨w0, hw0, _, hblk, hbby⟩
        refine ⟨w0, by rw [hk]; exact hw0, ?_, ?_⟩
        · intro x hx
          rw [← hw] at hx
          rcases hbby x hx with h1 | h1
          · exact Or.inl h1
          · exact Or.inr ⟨by rw [hk, h1.1], h1.2⟩
        · intro x hx
          rw [← hw] at hx
          simp only [List.mem_append, List.mem_singleton] at hx
          rcases hx with hx | hx
          · rw [hblk] at hx
            exact Or.inl hx
          · exact Or.inr ⟨hk, hx⟩
      · rw [lookup_dictModify_ne _ _ hk] at hw
        rcases hback_a k w hw with ⟨w0, hw0, _, hblk, hbby⟩
        refine ⟨w0, hw0, ?_, ?_⟩
        · intro x hx
          exact hbby x hx
        · intro x hx
          rw [hblk] at hx
          exact Or.inl hx
    have hfwd1 : ∀ k w0, lookup d k = some w0 → ∃ w, lookup D1 k = some w ∧
        (∀ x ∈ w0.blocked_by, x ∈ w.blocked_by) ∧ (∀ x ∈ w0.blocks, x ∈ w.blocks) := by
      intro k w0 hw0
      rcases hfwd_a k w0 hw0 with ⟨wa, hwa, _, hblk, hbby⟩
      rw [hD1e]
      by_cases hk : k = dep
      · rw [hk, lookup_dictModify_self]
        rw [hk] at hwa
        rw [hwa, Option.map_some']
        refine ⟨_, rfl, ?_, ?_⟩
        · intro x hx
          exact hbby x hx
        · intro x hx
          simp only [List.mem_append]
          exact Or.inl (by rw [hblk]; exact hx)
      · rw [lookup_dictModify_ne _ _ hk]
        refine ⟨wa, hwa, ?_, ?_⟩
        · intro x hx
          exact hbby x hx
        · intro x hx
          rw [hblk]
          exact hx
    have ht1 : ∃ wt, lookup D1 task_id = some wt ∧ dep ∈ wt.blocked_by := by
      rcases hta with ⟨wt, hwt, hmem⟩
      rw [hD1e]
      by_cases hk : task_id = dep
      · rw [hk, lookup_dictModify_self]
        rw [hk] at hwt
        rw [hwt, Option.map_some']
        exact ⟨_, rfl, hmem⟩
      · rw [lookup_dictModify_ne _ _ hk]
        exact ⟨wt, hwt, hmem⟩
    have hd1 : ∃ wv, lookup D1 dep = some wv ∧ task_id ∈ wv.blocks := by
      rw [hD1e, lookup_dictModify_self, hud, Option.map_some']
      exact ⟨_, rfl, by simp⟩
    rcases edge_step_transfer d D1 task_id dep hkeys1 hnd hA hB hback1 hfwd1 ht1 hd1 with
      ⟨hA1, hB1⟩
    have hnd1 : (keysOf D1).Nodup := nodup_of_keysOf_eq hkeys1 hnd
    have hct1 : containsKey D1 task_id = true := by
      rw [containsKey_congr hkeys1]
      exact hct
    have hall1 : ∀ x ∈ rest, containsKey D1 x = true := by
      intro x hx
      rw [containsKey_congr hkeys1]
      exact hall x (List.mem_cons_of_mem _ hx)
    rcases ih D1 hkm1 hnd1 hA1 hB1 hct1 hall1 with ⟨k1, k2, k3, k4⟩
    exact ⟨by rw [k1]; exact hkeys1, k2, k3, k4⟩

theorem addBlocks_fold_inv (task_id : String) :
    ∀ (bids : List String) (d : TaskDict),
      DKeysMatch d → (keysOf d).Nodup → DEdgeSymA d → DEdgeSymB d →
      containsKey d task_id = true → (∀ x ∈ bids, containsKey d x = true) →
      keysOf (bids.foldl (fun d bid =>
        let d' := if ((lookup d task_id).getD defaultTask).blocks.contains bid then d
          else dictModify d task_id (fun t => { t with blocks := t.blocks ++ [bid] })
        if containsKey d' bid then
          dictModify d' bid (fun t => { t with blocked_by := t.blocked_by ++ [task_id] })
        else d') d) = keysOf d ∧
      DKeysMatch (bids.foldl (fun d bid =>
        let d' := if ((lookup d task_id).getD defaultTask).blocks.contains bid then d
          else dictModify d task_id (fun t => { t with blocks := t.blocks ++ [bid] })
        if containsKey d' bid then
          dictModify d' bid (fun t => { t with blocked_by := t.blocked_by ++ [task_id] })
        else d') d) ∧
      DEdgeSymA (bids.foldl (fun d bid =>
        let d' := if ((lookup d task_id).getD defaultTask).blocks.contains bid then d
          else dictModify d task_id (fun t => { t with blocks := t.blocks ++ [bid] })
        if containsKey d' bid then
          dictModify d' bid (fun t => { t with blocked_by := t.blocked_by ++ [task_id] })
        else d') d) ∧
      DEdgeSymB (bids.foldl (fun d bid =>
        let d' := if ((lookup d task_id).getD defaultTask).blocks.contains bid then d
          else dictModify d task_id (fun t => { t with blocks := t.blocks ++ [bid] })
        if containsKey d' bid then
          dictModify d' bid (fun t => { t with blocked_by := t.blocked_by ++ [task_id] })
        else d') d) := by
  intro bids
  induction bids with
  | nil =>
    intro d hkm hnd hA hB hct _
    exact ⟨rfl, hkm, hA, hB⟩
  | cons bid rest ih =>
    intro d hkm hnd hA hB hct hall
    simp only [List.foldl_cons]
    rcases (containsKey_iff_lookup d task_id).mp hct with ⟨ut, hut⟩
    set Da := if ((lookup d task_id).getD defaultTask).blocks.contains bid then d
      else dictModify d task_id (fun t => { t with blocks := t.blocks ++ [bid] })
      with hDa
    have hkeysa : keysOf Da = keysOf d := by
      rw [hDa]
      by_cases hin : ((lookup d task_id).getD defaultTask).blocks.contains bid
      · rw [if_pos hin]
      · rw [if_neg hin]
        exact keysOf_dictModify d task_id _
    have hback_a : ∀ k w, lookup Da k = some w → ∃ w0, lookup d k = some w0 ∧
        Task.id w = Task.id w0 ∧ w.blocked_by = w0.blocked_by ∧
        (∀ x ∈ w.blocks, x ∈ w0.blocks ∨ (k = task_id ∧ x = bid)) := by
      intro k w hw
      rw [hDa] at hw
      by_cases hin : ((lookup d task_id).getD defaultTask).blocks.contains bid
      · rw [if_pos hin] at hw
        exact ⟨w, hw, rfl, rfl, fun x hx => Or.inl hx⟩
      · rw [if_neg hin] at hw
        by_cases hk : k = task_id
        · rw [hk, lookup_dictModify_self, hut] at hw
          rw [Option.map_some'] at hw
          injection hw with hw
          refine ⟨ut, by rw [hk, hut], by rw [← hw], by rw [← hw], ?_⟩
          intro x hx
          rw [← hw] at hx
          simp only [List.mem_append, List.mem_singleton] at hx
          rcases hx with hx | hx
          · exact Or.inl hx
          · exact Or.inr ⟨hk, hx⟩
        · rw [lookup_dictModify_ne _ _ hk] at hw
          exact ⟨w, hw, rfl, rfl, fun x hx => Or.inl hx⟩
    have hfwd_a : ∀ k w0, lookup d k = some w0 → ∃ w, lookup Da k = some w ∧
        Task.id w = Task.id w0 ∧ w.blocked_by = w0.blocked_by ∧
        (∀ x ∈ w0.blocks, x ∈ w.blocks) := by
      intro k w0 hw0
      rw [hDa]
      by_cases hin : ((lookup d task_id).getD defaultTask).blocks.contains bid
      · rw [if_pos hin]
        exact ⟨w0, hw0, rfl, rfl, fun x hx => hx⟩
      · rw [if_neg hin]
        by_cases hk : k = task_id
        · rw [hk, lookup_dictModify_self]
          rw [hk] at hw0
          rw [hw0, Option.map_some']
          refine ⟨_, rfl, rfl, rfl, ?_⟩
          intro x hx
          simp only [List.mem_append]
          exact Or.inl hx
        · rw [lookup_dictModify_ne _ _ hk]
          exact ⟨w0, hw0, rfl, rfl, fun x hx => hx⟩
    have hta : ∃ wt, lookup Da task_id = some wt ∧ bid ∈ wt.blocks := by
      rw [hDa]
      by_cases hin : ((lookup d task_id).getD defaultTask).blocks.contains bid
      · rw [if_pos hin]
        refine ⟨ut, hut, ?_⟩
        rw [hut] at hin
        simpa using hin
      · rw [if_neg hin]
        rw [lookup_dictModify_self, hut, Option.map_some']
        exact ⟨_, rfl, by simp⟩
    have hkma : DKeysMatch Da := by
      rw [hDa]
      by_cases hin : ((lookup d task_id).getD defaultTask).blocks.contains bid
      · rw [if_pos hin]; exact hkm
      · rw [if_neg hin]
        exact keysMatch_dictModify (fun _ => rfl) hkm
    have hcda : containsKey Da bid = true := by
      rw [containsKey_congr hkeysa]
      exact hall bid (List.mem_cons_self _ _)
    rcases (containsKey_iff_lookup Da bid).mp hcda with ⟨ud, hud⟩
    set D1 := if containsKey Da bid then
        dictModify Da bid (fun t => { t with blocked_by := t.blocked_by ++ [task_id] })
      else Da with hD1
    have hD1e : D1 = dictModify Da bid
        (fun t => { t with blocked_by := t.blocked_by ++ [task_id] }) := by
      rw [hD1, if_pos hcda]
    have hkeys1 : keysOf D1 = keysOf d := by
      rw [hD1e, keysOf_dictModify]
      exact hkeysa
    have hkm1 : DKeysMatch D1 := by
      rw [hD1e]
      exact keysMatch_dictModify (fun _ => rfl) hkma
    have hback1 : ∀ k w, lookup D1 k = some w → ∃ w0, lookup d k = some w0 ∧
        (∀ x ∈ w.blocked_by, x ∈ w0.blocked_by ∨ (k = bid ∧ x = task_id)) ∧
        (∀ x ∈ w.blocks, x ∈ w0.blocks ∨ (k = task_id ∧ x = bid)) := by
      intro k w hw
      rw [hD1e] at hw
      by_cases hk : k = bid
      · rw [hk, lookup_dictModify_self, hud, Option.map_some'] at hw
        injection hw with hw
        rcases hback_a bid ud hud with ⟨w0, hw0, _, hbby, hblk⟩
        refine ⟨w0, by rw [hk]; exact hw0, ?_, ?_⟩
        · intro x hx
          rw [← hw] at hx
          simp only [List.mem_append, List.mem_singleton] at hx
          rcases hx with hx | hx
          · rw [hbby] at hx
            exact Or.inl hx
          · exact Or.inr ⟨hk, hx⟩
        · intro x hx
          rw [← hw] at hx
          rcases hblk x hx with h1 | h1
          · exact Or.inl h1
          · exact Or.inr ⟨by rw [hk, h1.1], h1.2⟩
      · rw [lookup_dictModify_ne _ _ hk] at hw
        rcases hback_a k w hw with ⟨w0, hw0, _, hbby, hblk⟩
        refine ⟨w0, hw0, ?_, ?_⟩
        · intro x hx
          rw [hbby] at hx
          exact Or.inl hx
        · intro x hx
          exact hblk x hx
    have hfwd1 : ∀ k w0, lookup d k = some w0 → ∃ w, lookup D1 k = some w ∧
        (∀ x ∈ w0.blocked_by, x ∈ w.blocked_by) ∧ (∀ x ∈ w0.blocks, x ∈ w.blocks) := by
      intro k w0 hw0
      rcases hfwd_a k w0 hw0 with ⟨wa, hwa, _, hbby, hblk⟩
      rw [hD1e]
      by_cases hk : k = bid
      · rw [hk, lookup_dictModify_self]
        rw [hk] at hwa
        rw [hwa, Option.map_some']
        refine ⟨_, rfl, ?_, ?_⟩
        · intro x hx
          simp only [List.mem_append]
          exact Or.inl (by rw [hbby]; exact hx)
        · intro x hx
          exact hblk x hx
      · rw [lookup_dictModify_ne _ _ hk]
        refine ⟨wa, hwa, ?_, ?_⟩
        · intro x hx
          rw [hbby]
          exact hx
        · intro x hx
          exact hblk x hx
    have ht1 : ∃ wv, lookup D1 task_id = some wv ∧ bid ∈ wv.blocks := by
      rcases hta with ⟨wt, hwt, hmem⟩
      rw [hD1e]
      by_cases hk : task_id = bid
      · rw [hk, lookup_dictModify_self]
        rw [hk] at hwt
        rw [hwt, Option.map_some']
        exact ⟨_, rfl, hmem⟩
      · rw [lookup_dictModify_ne _ _ hk]
        exact ⟨wt, hwt, hmem⟩
    have hd1 : ∃ wu, lookup D1 bid = some wu ∧ task_id ∈ wu.blocked_by := by
      rw [hD1e, lookup_dictModify_self, hud, Option.map_some']
      exact ⟨_, rfl, by simp⟩
    rcases edge_step_transfer d D1 bid task_id hkeys1 hnd hA hB hback1 hfwd1 hd1 ht1 with
      ⟨hA1, hB1⟩
    have hnd1 : (keysOf D1).Nodup := nodup_of_keysOf_eq hkeys1 hnd
    have hct1 : containsKey D1 task_id = true := by
      rw [containsKey_congr hkeys1]
      exact hct
    have hall1 : ∀ x ∈ rest, containsKey D1 x = true := by
      intro x hx
      rw [containsKey_congr hkeys1]
      exact hall x (List.mem_cons_of_mem _ hx)
    rcases ih D1 hkm1 hnd1 hA1 hB1 hct1 hall1 with ⟨k1, k2, k3, k4⟩
    exact ⟨by rw [k1]; exact hkeys1, k2, k3, k4⟩

theorem containsKey_trans {α β : Type} {d1 : List (String × α)} {d2 : List (String × β)}
    (h : keysOf d1 = keysOf d2) {k : String} (hc : containsKey d2 k = true) :
    containsKey d1 k = true := by
  rw [containsKey_congr h]
  exact hc

theorem idsBounded_keys_eq {s : TaskList} {T : TaskDict} (hk : keysOf T = keysOf s.tasks)
    (h : IdsBounded s) : ∀ p ∈ T, ∃ n : Nat, p.1 = toString n ∧ n < s.next_id := by
  intro p hp
  have hmem : p.1 ∈ keysOf s.tasks := by
    rw [← hk]
    exact List.mem_map_of_mem _ hp
  rcases List.mem_map.mp hmem with ⟨q, hq, hqe⟩
  rcases h q hq with ⟨n, hn1, hn2⟩
  exact ⟨n, by rw [← hqe, hn1], hn2⟩

theorem inv_foldDep_stage (d : TaskDict) (b : Bool) (task_id : String) (deps : List String)
    (hkm : DKeysMatch d) (hnd : (keysOf d).Nodup) (hA : DEdgeSymA d) (hB : DEdgeSymB d)
    (hct : containsKey d task_id = true) (hall : ∀ x ∈ deps, containsKey d x = true) :
    keysOf (if b then deps.foldl (fun d dep =>
        let d' := if ((lookup d task_id).getD defaultTask).blocked_by.contains dep then d
          else dictModify d task_id (fun t => { t with blocked_by := t.blocked_by ++ [dep] })
        if containsKey d' dep then
          dictModify d' dep (fun t => { t with blocks := t.blocks ++ [task_id] })
        else d') d else d) = keysOf d ∧
    DKeysMatch (if b then deps.foldl (fun d dep =>
        let d' := if ((lookup d task_id).getD defaultTask).blocked_by.contains dep then d
          else dictModify d task_id (fun t => { t with blocked_by := t.blocked_by ++ [dep] })
        if containsKey d' dep then
          dictModify d' dep (fun t => { t with blocks := t.blocks ++ [task_id] })
        else d') d else d) ∧
    DEdgeSymA (if b then deps.foldl (fun d dep =>
        let d' := if ((lookup d task_id).getD defaultTask).blocked_by.contains dep then d
          else dictModify d task_id (fun t => { t with blocked_by := t.blocked_by ++ [dep] })
        if containsKey d' dep then
          dictModify d' dep (fun t => { t with blocks := t.blocks ++ [task_id] })
        else d') d else d) ∧
    DEdgeSymB (if b then deps.foldl (fun d dep =>
        let d' := if ((lookup d task_id).getD defaultTask).blocked_by.contains dep then d
          else dictModify d task_id (fun t => { t with blocked_by := t.blocked_by ++ [dep] })
        if containsKey d' dep then
          dictModify d' dep (fun t => { t with blocks := t.blocks ++ [task_id] })
        else d') d else d) := by
  by_cases hb : b = true
  · rw [hb]
    simp only [if_true]
    exact addDep_fold_inv task_id deps d hkm hnd hA hB hct hall
  · rw [Bool.not_eq_true] at hb
    rw [hb]
    simp only [Bool.false_eq_true, if_false]
    exact ⟨trivial, hkm, hA, hB⟩

theorem inv_foldBlocks_stage (d : TaskDict) (b : Bool) (task_id : String) (bids : List String)
    (hkm : DKeysMatch d) (hnd : (keysOf d).Nodup) (hA : DEdgeSymA d) (hB : DEdgeSymB d)
    (hct : containsKey d task_id = true) (hall : ∀ x ∈ bids, containsKey d x = true) :
    keysOf (if b then bids.foldl (fun d bid =>
        let d' := if ((lookup d task_id).getD defaultTask).blocks.contains bid then d
          else dictModify d task_id (fun t => { t with blocks := t.blocks ++ [bid] })
        if containsKey d' bid then
          dictModify d' bid (fun t => { t with blocked_by := t.blocked_by ++ [task_id] })
        else d') d else d) = keysOf d ∧
    DKeysMatch (if b then bids.foldl (fun d bid =>
        let d' := if ((lookup d task_id).getD defaultTask).blocks.contains bid then d
          else dictModify d task_id (fun t => { t with blocks := t.blocks ++ [bid] })
        if containsKey d' bid then
          dictModify d' bid (fun t => { t with blocked_by := t.blocked_by ++ [task_id] })
        else d') d else d) ∧
    DEdgeSymA (if b then bids.foldl (fun d bid =>
        let d' := if ((lookup d task_id).getD defaultTask).blocks.contains bid then d
          else dictModify d task_id (fun t => { t with blocks := t.blocks ++ [bid] })
        if containsKey d' bid then
          dictModify d' bid (fun t => { t with blocked_by := t.blocked_by ++ [task_id] })
        else d') d else d) ∧
    DEdgeSymB (if b then bids.foldl (fun d bid =>
        let d' := if ((lookup d task_id).getD defaultTask).blocks.contains bid then d
          else dictModify d task_id (fun t => { t with blocks := t.blocks ++ [bid] })
        if containsKey d' bid then
          dictModify d' bid (fun t => { t with blocked_by := t.blocked_by ++ [task_id] })
        else d') d else d) := by
  by_cases hb : b = true
  · rw [hb]
    simp only [if_true]
    exact addBlocks_fold_inv task_id bids d hkm hnd hA hB hct hall
  · rw [Bool.not_eq_true] at hb
    rw [hb]
    simp only [Bool.false_eq_true, if_false]
    exact ⟨trivial, hkm, hA, hB⟩

theorem update_ok_inv (s s' : TaskList) (tret : Task) (task_id : String)
    (status subject description owner : Option String)
    (add_blocked_by add_blocks : Option (List String)) (now : String)
    (hInv : Inv s)
    (hadd1 : ∀ x ∈ add_blocked_by.getD [], containsKey s.tasks x = true)
    (hadd2 : ∀ x ∈ add_blocks.getD [], containsKey s.tasks x = true)
    (hupd : s.update task_id status subject description owner add_blocked_by add_blocks now =
      Except.ok (s', tret)) : Inv s' := by
  obtain ⟨hkm, hnd, hib, hA, hB⟩ := hInv
  rw [TaskList.update] at hupd
  by_cases hct : containsKey s.tasks task_id
  · rw [if_pos hct] at hupd
    dsimp only at hupd
    simp only [Except.ok.injEq, Prod.mk.injEq] at hupd
    obtain ⟨h1, _⟩ := hupd
    rw [← h1]
    obtain ⟨K1, M1, A1, B1⟩ := inv_stage s.tasks (truthyS status) task_id
      (fun t =>
        let st := status.getD ""
        let t1 := { t with status := st }
        if st = "completed" then { t1 with completed_at := some now } else t1)
      (fun w => by dsimp only; split <;> rfl)
      (fun w => by dsimp only; split <;> rfl)
      (fun w => by dsimp only; split <;> rfl)
      hkm hnd hA hB
    obtain ⟨K2, M2, A2, B2⟩ := inv_stage _ (truthyS subject) task_id
      (fun t => { t with subject := subject.getD "" })
      (fun _ => rfl) (fun _ => rfl) (fun _ => rfl)
      M1 (nodup_of_keysOf_eq K1 hnd) A1 B1
    obtain ⟨K3, M3, A3, B3⟩ := inv_stage _ (truthyS description) task_id
      (fun t => { t with description := description.getD "" })
      (fun _ => rfl) (fun _ => rfl) (fun _ => rfl)
      M2 (nodup_of_keysOf_eq (K2.trans K1) hnd) A2 B2
    obtain ⟨K4, M4, A4, B4⟩ := inv_stage _ (truthyS owner) task_id
      (fun t => { t with owner := owner })
      (fun _ => rfl) (fun _ => rfl) (fun _ => rfl)
      M3 (nodup_of_keysOf_eq (K3.trans (K2.trans K1)) hnd) A3 B3
    have K14 := K4.trans (K3.trans (K2.trans K1))
    obtain ⟨K5, M5, A5, B5⟩ := inv_foldDep_stage _ (truthyL add_blocked_by) task_id
      (add_blocked_by.getD []) M4 (nodup_of_keysOf_eq K14 hnd) A4 B4
      (containsKey_trans K14 hct)
      (fun x hx => containsKey_trans K14 (hadd1 x hx))
    have K15 := K5.trans K14
    obtain ⟨K6, M6, A6, B6⟩ := inv_foldBlocks_stage _ (truthyL add_blocks) task_id
      (add_blocks.getD []) M5 (nodup_of_keysOf_eq K15 hnd) A5 B5
      (containsKey_trans K15 hct)
      (fun x hx => containsKey_trans K15 (hadd2 x hx))
    have K16 := K6.trans K15
    refine ⟨M6, nodup_of_keysOf_eq K16 hnd, ?_, A6, B6⟩
    intro p hp
    exact idsBounded_keys_eq K16 hib p hp
  · rw [if_neg hct] at hupd
    exact absurd hupd (by simp)

theorem create_fold_spec (tid : String) :
    ∀ (bbl : List String) (D : TaskDict),
      keysOf (bbl.foldl (fun d dep =>
        if containsKey d dep then
          dictModify d dep (fun u => { u with blocks := u.blocks ++ [tid] })
        else d) D) = keysOf D ∧
      (DKeysMatch D → DKeysMatch (bbl.foldl (fun d dep =>
        if containsKey d dep then
          dictModify d dep (fun u => { u with blocks := u.blocks ++ [tid] })
        else d) D)) ∧
      (∀ k w, lookup (bbl.foldl (fun d dep =>
        if containsKey d dep then
          dictModify d dep (fun u => { u with blocks := u.blocks ++ [tid] })
        else d) D) k = some w → ∃ w0, lookup D k = some w0 ∧
        Task.id w = Task.id w0 ∧ w.blocked_by = w0.blocked_by ∧
        (∀ x ∈ Task.blocks w0, x ∈ Task.blocks w) ∧
        (∀ x ∈ Task.blocks w, x ∈ Task.blocks w0 ∨ (x = tid ∧ k ∈ bbl))) ∧
      (∀ k w0, lookup D k = some w0 → ∃ w, lookup (bbl.foldl (fun d dep =>
        if containsKey d dep then
          dictModify d dep (fun u => { u with blocks := u.blocks ++ [tid] })
        else d) D) k = some w ∧
        Task.id w = Task.id w0 ∧ w.blocked_by = w0.blocked_by ∧
        (∀ x ∈ Task.blocks w0, x ∈ Task.blocks w)) ∧
      (∀ dep ∈ bbl, containsKey D dep = true →
        ∃ u, lookup (bbl.foldl (fun d dep =>
          if containsKey d dep then
            dictModify d dep (fun u => { u with blocks := u.blocks ++ [tid] })
          else d) D) dep = some u ∧ tid ∈ Task.blocks u) := by
  intro bbl
  induction bbl with
  | nil =>
    intro D
    refine ⟨rfl, fun h => h, ?_, ?_, ?_⟩
    · intro k w hw
      exact ⟨w, hw, rfl, rfl, fun x hx => hx, fun x hx => Or.inl hx⟩
    · intro k w0 hw0
      exact ⟨w0, hw0, rfl, rfl, fun x hx => hx⟩
    · intro dep hdep
      simp at hdep
  | cons dep rest ih =>
    intro D
    simp only [List.foldl_cons]
    -- single step facts
    have hkeys1 : keysOf (if containsKey D dep then
        dictModify D dep (fun u => { u with blocks := u.blocks ++ [tid] }) else D) = keysOf D := by
      by_cases hc : containsKey D dep
      · rw [if_pos hc]
        exact keysOf_dictModify _ _ _
      · rw [if_neg hc]
    have hback1 : ∀ k w, lookup (if containsKey D dep then
        dictModify D dep (fun u => { u with blocks := u.blocks ++ [tid] }) else D) k = some w →
        ∃ w0, lookup D k = some w0 ∧ Task.id w = Task.id w0 ∧
          w.blocked_by = w0.blocked_by ∧ (∀ x ∈ Task.blocks w0, x ∈ Task.blocks w) ∧
          (∀ x ∈ Task.blocks w, x ∈ Task.blocks w0 ∨ (x = tid ∧ k = dep)) := by
      intro k w hw
      by_cases hc : containsKey D dep
      · rw [if_pos hc] at hw
        by_cases hk : k = dep
        · rw [hk, lookup_dictModify_self] at hw
          cases h0 : lookup D dep with
          | none => rw [h0] at hw; exact absurd hw (by simp [Option.map])
          | some w0 =>
            rw [h0, Option.map_some'] at hw
            injection hw with hw
            refine ⟨w0, by rw [hk, h0], by rw [← hw], by rw [← hw], ?_, ?_⟩
            · intro x hx
              rw [← hw]
              simp only [List.mem_append]
              exact Or.inl hx
            · intro x hx
              rw [← hw] at hx
              simp only [List.mem_append, List.mem_singleton] at hx
              rcases hx with hx | hx
              · exact Or.inl hx
              · exact Or.inr ⟨hx, hk⟩
        · rw [lookup_dictModify_ne _ _ hk] at hw
          exact ⟨w, hw, rfl, rfl, fun x hx => hx, fun x hx => Or.inl hx⟩
      · rw [if_neg hc] at hw
        exact ⟨w, hw, rfl, rfl, fun x hx => hx, fun x hx => Or.inl hx⟩
    have hfwd1 : ∀ k w0, lookup D k = some w0 →
        ∃ w, lookup (if containsKey D dep then
          dictModify D dep (fun u => { u with blocks := u.blocks ++ [tid] }) else D) k = some w ∧
          Task.id w = Task.id w0 ∧ w.blocked_by = w0.blocked_by ∧
          (∀ x ∈ Task.blocks w0, x ∈ Task.blocks w) := by
      intro k w0 hw0
      by_cases hc : containsKey D dep
      · rw [if_pos hc]
        by_cases hk : k = dep
        · rw [hk, lookup_dictModify_self]
          rw [hk] at hw0
          rw [hw0, Option.map_some']
          refine ⟨_, rfl, rfl, rfl, ?_⟩
          intro x hx
          simp only [List.mem_append]
          exact Or.inl hx
        · rw [lookup_dictModify_ne _ _ hk]
          exact ⟨w0, hw0, rfl, rfl, fun x hx => hx⟩
      · rw [if_neg hc]
        exact ⟨w0, hw0, rfl, rfl, fun x hx => hx⟩
    have hkm1 : DKeysMatch D → DKeysMatch (if containsKey D dep then
        dictModify D dep (fun u => { u with blocks := u.blocks ++ [tid] }) else D) := by
      intro hkm
      by_cases hc : containsKey D dep
      · rw [if_pos hc]
        exact keysMatch_dictModify (fun _ => rfl) hkm
      · rw [if_neg hc]
        exact hkm
    rcases ih (if containsKey D dep then
        dictModify D dep (fun u => { u with blocks := u.blocks ++ [tid] }) else D) with
      ⟨ikeys, ikm, iback, ifwd, ic4⟩
    refine ⟨ikeys.trans hkeys1, fun h => ikm (hkm1 h), ?_, ?_, ?_⟩
    · intro k w hw
      rcases iback k w hw with ⟨w1, hw1, hid1, hbb1, hsup1, hnew1⟩
      rcases hback1 k w1 hw1 with ⟨w0, hw0, hid0, hbb0, hsup0, hnew0⟩
      refine ⟨w0, hw0, hid1.trans hid0, hbb1.trans hbb0, ?_, ?_⟩
      · intro x hx
        exact hsup1 x (hsup0 x hx)
      · intro x hx
        rcases hnew1 x hx with h1 | h1
        · rcases hnew0 x h1 with h2 | h2
          · exact Or.inl h2
          · exact Or.inr ⟨h2.1, by rw [h2.2]; exact List.mem_cons_self _ _⟩
        · exact Or.inr ⟨h1.1, List.mem_cons_of_mem _ h1.2⟩
    · intro k w0 hw0
      rcases hfwd1 k w0 hw0 with ⟨w1, hw1, hid1, hbb1, hsup1⟩
      rcases ifwd k w1 hw1 with ⟨w, hw, hid, hbb, hsup⟩
      exact ⟨w, hw, hid.trans hid1, hbb.trans hbb1, fun x hx => hsup x (hsup1 x hx)⟩
    · intro dep' hdep' hcdep'
      rcases List.mem_cons.mp hdep' with h | h
      · subst h
        rcases (containsKey_iff_lookup D dep').mp hcdep' with ⟨u0, hu0⟩
        have : lookup (if containsKey D dep' then
            dictModify D dep' (fun u => { u with blocks := u.blocks ++ [tid] }) else D) dep' =
            some { u0 with blocks := u0.blocks ++ [tid] } := by
          rw [if_pos hcdep', lookup_dictModify_self, hu0, Option.map_some']
        rcases ifwd dep' _ this with ⟨w, hw, _, _, hsup⟩
        refine ⟨w, hw, hsup tid ?_⟩
        simp
      · apply ic4 dep' h
        rw [containsKey_congr hkeys1]
        exact hcdep'

theorem create_ok_inv_aux (s : TaskList) (subject description af : String)
    (bbl : List String) (now : String) (hInv : Inv s)
    (hbb : ∀ x ∈ bbl, containsKey s.tasks x = true) :
    Inv { list_id := s.list_id,
          tasks := List.foldl (fun d dep =>
              if containsKey d dep then
                dictModify d dep (fun u => { u with blocks := u.blocks ++ [toString s.next_id] })
              else d)
            (dictSet s.tasks (toString s.next_id)
              { id := toString s.next_id, subject := subject, description := description,
                status := "pending",
                active_form := if af = "" then "Working on: " ++ subject else af,
                owner := none, blocked_by := bbl, blocks := [],
                created_at := now, completed_at := none, metadata := [] })
            bbl,
          next_id := s.next_id + 1 } := by
  obtain ⟨hkm, hnd, hib, hA, hB⟩ := hInv
  have hfresh : containsKey s.tasks (toString s.next_id) = false := by
    by_contra hcon
    rw [Bool.not_eq_false] at hcon
    have hmem := (containsKey_iff_mem _ _).mp hcon
    rcases List.mem_map.mp hmem with ⟨p, hp, hpe⟩
    rcases hib p hp with ⟨n, hn1, hn2⟩
    have heq : toString n = toString s.next_id := by rw [← hn1, hpe]
    have := natToString_injective heq
    omega
  have hd1app : dictSet s.tasks (toString s.next_id)
      { id := toString s.next_id, subject := subject, description := description,
        status := "pending",
        active_form := if af = "" then "Working on: " ++ subject else af,
        owner := none, blocked_by := bbl, blocks := [],
        created_at := now, completed_at := none, metadata := [] } =
      s.tasks ++ [(toString s.next_id,
        { id := toString s.next_id, subject := subject, description := description,
          status := "pending",
          active_form := if af = "" then "Working on: " ++ subject else af,
          owner := none, blocked_by := bbl, blocks := [],
          created_at := now, completed_at := none, metadata := [] })] :=
    dictSet_eq_append _ hfresh
  have hkeys1 : keysOf (dictSet s.tasks (toString s.next_id)
      { id := toString s.next_id, subject := subject, description := description,
        status := "pending",
        active_form := if af = "" then "Working on: " ++ subject else af,
        owner := none, blocked_by := bbl, blocks := [],
        created_at := now, completed_at := none, metadata := [] }) =
      keysOf s.tasks ++ [toString s.next_id] := by
    rw [hd1app]
    simp [keysOf]
  have hnd1 : (keysOf (dictSet s.tasks (toString s.next_id)
      { id := toString s.next_id, subject := subject, description := description,
        status := "pending",
        active_form := if af = "" then "Working on: " ++ subject else af,
        owner := none, blocked_by := bbl, blocks := [],
        created_at := now, completed_at := none, metadata := [] })).Nodup := by
    rw [hkeys1]
    rw [List.nodup_append]
    refine ⟨hnd, by simp, ?_⟩
    intro a ha hb
    simp only [List.mem_singleton] at hb
    rw [hb] at ha
    rw [(containsKey_iff_mem _ _).mpr ha] at hfresh
    exact Bool.true_eq_false.mp hfresh
  have hkm1 : DKeysMatch (dictSet s.tasks (toString s.next_id)
      { id := toString s.next_id, subject := subject, description := description,
        status := "pending",
        active_form := if af = "" then "Working on: " ++ subject else af,
        owner := none, blocked_by := bbl, blocks := [],
        created_at := now, completed_at := none, metadata := [] }) := by
    rw [hd1app]
    intro p hp
    rcases List.mem_append.mp hp with h | h
    · exact hkm p h
    · simp only [List.mem_singleton] at h
      rw [h]
  have hlookup1self : lookup (dictSet s.tasks (toString s.next_id)
      { id := toString s.next_id, subject := subject, description := description,
        status := "pending",
        active_form := if af = "" then "Working on: " ++ subject else af,
        owner := none, blocked_by := bbl, blocks := [],
        created_at := now, completed_at := none, metadata := [] }) (toString s.next_id) =
      some
        { id := toString s.next_id, subject := subject, description := description,
          status := "pending",
          active_form := if af = "" then "Working on: " ++ subject else af,
          owner := none, blocked_by := bbl, blocks := [],
          created_at := now, completed_at := none, metadata := [] } :=
    lookup_dictSet_self _ _ _
  have hdepne : ∀ x ∈ bbl, ¬ x = toString s.next_id := by
    intro x hx he
    have hc := hbb x hx
    rw [he] at hc
    rw [hc] at hfresh
    exact Bool.true_eq_false.mp hfresh
  have hlook1bbl : ∀ x ∈ bbl, ∃ v, lookup (dictSet s.tasks (toString s.next_id)
      { id := toString s.next_id, subject := subject, description := description,
        status := "pending",
        active_form := if af = "" then "Working on: " ++ subject else af,
        owner := none, blocked_by := bbl, blocks := [],
        created_at := now, completed_at := none, metadata := [] }) x = some v ∧
      lookup s.tasks x = some v := by
    intro x hx
    rcases (containsKey_iff_lookup _ _).mp (hbb x hx) with ⟨v, hv⟩
    refine ⟨v, ?_, hv⟩
    rw [lookup_dictSet_ne _ _ (hdepne x hx), hv]
  rcases create_fold_spec (toString s.next_id) bbl
    (dictSet s.tasks (toString s.next_id)
      { id := toString s.next_id, subject := subject, description := description,
        status := "pending",
        active_form := if af = "" then "Working on: " ++ subject else af,
        owner := none, blocked_by := bbl, blocks := [],
        created_at := now, completed_at := none, metadata := [] }) with
    ⟨skeys, skm, sback, sfwd, sc4⟩
  have hnd2 := nodup_of_keysOf_eq skeys hnd1
  refine ⟨skm hkm1, hnd2, ?_, ?_, ?_⟩
  · -- IdsBounded
    intro p hp
    dsimp only
    have hpk : p.1 ∈ keysOf s.tasks ++ [toString s.next_id] := by
      rw [← hkeys1, ← skeys]
      exact List.mem_map_of_mem _ hp
    rcases List.mem_append.mp hpk with h | h
    · rcases List.mem_map.mp h with ⟨q, hq, hqe⟩
      rcases hib q hq with ⟨n, hn1, hn2⟩
      exact ⟨n, by rw [← hqe, hn1], by omega⟩
    · simp only [List.mem_singleton] at h
      exact ⟨s.next_id, h, by omega⟩
  · -- EdgeSymA
    intro p hp x hx
    obtain ⟨a, b⟩ := p
    have hl2 := lookup_eq_some_of_mem hp hnd2
    rcases sback a b hl2 with ⟨w0, hw0, _, hbb0, _, _⟩
    have hx' : x ∈ w0.blocked_by := by rw [← hbb0]; exact hx
    by_cases hp1 : a = toString s.next_id
    · rw [hp1, hlookup1self] at hw0
      injection hw0 with hw0
      rw [← hw0] at hx'
      simp only at hx'
      rcases hlook1bbl x hx' with ⟨v, hv1, _⟩
      rcases sc4 x hx' ((containsKey_iff_lookup _ _).mpr ⟨v, hv1⟩) with ⟨u, hu, hmem⟩
      exact ⟨u, hu, by rw [hp1]; exact hmem⟩
    · rw [lookup_dictSet_ne _ _ hp1] at hw0
      rcases hA (a, w0) (mem_of_lookup_eq_some hw0) x hx' with ⟨td0, htd0, hm⟩
      have hxne : ¬ x = toString s.next_id := by
        intro he
        rw [he] at htd0
        rw [(containsKey_iff_lookup _ _).mpr ⟨td0, htd0⟩] at hfresh
        exact Bool.true_eq_false.mp hfresh
      have htd1 : lookup (dictSet s.tasks (toString s.next_id)
          { id := toString s.next_id, subject := subject, description := description,
            status := "pending",
            active_form := if af = "" then "Working on: " ++ subject else af,
            owner := none, blocked_by := bbl, blocks := [],
            created_at := now, completed_at := none, metadata := [] }) x = some td0 := by
        rw [lookup_dictSet_ne _ _ hxne, htd0]
      rcases sfwd x td0 htd1 with ⟨td, htd, _, _, hsup⟩
      exact ⟨td, htd, hsup a hm⟩
  · -- EdgeSymB
    intro p hp b hb
    obtain ⟨a, w⟩ := p
    have hl2 := lookup_eq_some_of_mem hp hnd2
    rcases sback a w hl2 with ⟨w0, hw0, _, hbb0, _, hnew0⟩
    rcases hnew0 b hb with hold | hnew
    · by_cases hp1 : a = toString s.next_id
      · rw [hp1, hlookup1self] at hw0
        injection hw0 with hw0
        rw [← hw0] at hold
        simp only at hold
        exact absurd hold (List.not_mem_nil b)
      · rw [lookup_dictSet_ne _ _ hp1] at hw0
        rcases hB (a, w0) (mem_of_lookup_eq_some hw0) b hold with ⟨tb0, htb0, hm⟩
        have hbne : ¬ b = toString s.next_id := by
          intro he
          rw [he] at htb0
          rw [(containsKey_iff_lookup _ _).mpr ⟨tb0, htb0⟩] at hfresh
          exact Bool.true_eq_false.mp hfresh
        have htb1 : lookup (dictSet s.tasks (toString s.next_id)
            { id := toString s.next_id, subject := subject, description := description,
              status := "pending",
              active_form := if af = "" then "Working on: " ++ subject else af,
              owner := none, blocked_by := bbl, blocks := [],
              created_at := now, completed_at := none, metadata := [] }) b = some tb0 := by
          rw [lookup_dictSet_ne _ _ hbne, htb0]
        rcases sfwd b tb0 htb1 with ⟨tb, htb, _, hbbeq, _⟩
        refine ⟨tb, htb, ?_⟩
        rw [hbbeq]
        exact hm
    · rcases sfwd (toString s.next_id) _ hlookup1self with ⟨w, hw, _, hbbeq, _⟩
      refine ⟨w, by rw [hnew.1]; exact hw, ?_⟩
      rw [hbbeq]
      simp only
      exact hnew.2

theorem create_ok_inv (s : TaskList) (subject description af : String)
    (bb : Option (List String)) (now : String)
    (hInv : Inv s) (hbb : ∀ x ∈ bb.getD [], containsKey s.tasks x = true) :
    Inv (s.create subject description af bb now).1 := by
  rw [TaskList.create.eq_def]
  cases bb with
  | none =>
    dsimp only
    exact create_ok_inv_aux s subject description af [] now hInv (by simp)
  | some l =>
    dsimp only
    exact create_ok_inv_aux s subject description af l now hInv (by simpa using hbb)

theorem inv_empty (lid : String) : Inv (TaskList.empty lid) := by
  refine ⟨?_, ?_, ?_, ?_, ?_⟩
  · intro p hp
    simp [TaskList.empty] at hp
  · simp [KeysNodup, TaskList.empty, keysOf]
  · intro p hp
    simp [TaskList.empty] at hp
  · intro p hp
    simp [TaskList.empty] at hp
  · intro p hp
    simp [TaskList.empty] at hp

theorem inv_reachableChecked {s : TaskList} (h : ReachableChecked s) : Inv s := by
  induction h with
  | init lid => exact inv_empty lid
  | create s subject description active_form blocked_by now _ hbb ih =>
    exact create_ok_inv s subject description active_form blocked_by now ih hbb
  | update s s' t task_id status subject description owner add_blocked_by add_blocks now
      _ hadd1 hadd2 hupd ih =>
    exact update_ok_inv s s' t task_id status subject description owner
      add_blocked_by add_blocks now ih hadd1 hadd2 hupd

/-! ## Lemmas: critical path -/

/-- Above its rank, the memo-free `plainPL` no longer depends on fuel. -/
theorem plainPL_stable (s : TaskList) (rank : String → Nat)
    (hrk : ∀ k t, lookup s.tasks k = some t → ∀ c ∈ Task.blocks t, rank c < rank k) :
    ∀ r id f₁ f₂, rank id ≤ r → rank id < f₁ → rank id < f₂ →
      plainPL s f₁ id = plainPL s f₂ id := by
  intro r
  induction r with
  | zero =>
    intro id f₁ f₂ hr h1 h2
    rcases Nat.exists_eq_succ_of_ne_zero (by omega : f₁ ≠ 0) with ⟨a, rfl⟩
    rcases Nat.exists_eq_succ_of_ne_zero (by omega : f₂ ≠ 0) with ⟨b, rfl⟩
    simp only [plainPL]
    cases hl : TaskList.get s id with
    | none => rfl
    | some t =>
      by_cases hb : t.blocks.isEmpty
      · simp [hb]
      · exfalso
        cases hbl : t.blocks with
        | nil => rw [hbl] at hb; simp at hb
        | cons c cs =>
          have := hrk id t hl c (by rw [hbl]; exact List.mem_cons_self _ _)
          omega
  | succ n ih =>
    intro id f₁ f₂ hr h1 h2
    rcases Nat.exists_eq_succ_of_ne_zero (by omega : f₁ ≠ 0) with ⟨a, rfl⟩
    rcases Nat.exists_eq_succ_of_ne_zero (by omega : f₂ ≠ 0) with ⟨b, rfl⟩
    simp only [plainPL]
    cases hl : TaskList.get s id with
    | none => rfl
    | some t =>
      by_cases hb : t.blocks.isEmpty
      · simp [hb]
      · simp only [hb, Bool.false_eq_true, if_false]
        have hfold : t.blocks.foldl (fun (acc : PLResult) child =>
            let q := plainPL s a child
            if q.1 > acc.1 then q else acc) (0, []) =
            t.blocks.foldl (fun (acc : PLResult) child =>
            let q := plainPL s b child
            if q.1 > acc.1 then q else acc) (0, []) := by
          apply List.foldl_ext
          intro acc c hc
          have hrc := hrk id t hl c hc
          rw [ih c a b (by omega) (by omega) (by omega)]
        rw [hfold]

/-- For a stored task, `plainPL` realizes its recorded length: the path is
a `blocks` chain of exactly that length, headed by the task itself. -/
theorem plainPL_realizes (s : TaskList) (rank : String → Nat)
    (hrk : ∀ k t, lookup s.tasks k = some t → ∀ c ∈ Task.blocks t, rank c < rank k)
    (hcl : ∀ k t, lookup s.tasks k = some t → ∀ c ∈ Task.blocks t,
      containsKey s.tasks c = true) :
    ∀ r id f t, rank id ≤ r → rank id < f → TaskList.get s id = some t →
      (plainPL s f id).2.length = (plainPL s f id).1 ∧
      1 ≤ (plainPL s f id).1 ∧
      isChain s (plainPL s f id).2 = true ∧
      (plainPL s f id).2.head? = some id := by
  intro r
  induction r with
  | zero =>
    intro id f t hr hf hl
    rcases Nat.exists_eq_succ_of_ne_zero (by omega : f ≠ 0) with ⟨a, rfl⟩
    simp only [plainPL, hl]
    by_cases hb : t.blocks.isEmpty
    · simp only [hb, if_true]
      refine ⟨rfl, le_rfl, ?_, rfl⟩
      simp only [isChain]
      exact (containsKey_iff_lookup _ _).mpr ⟨t, hl⟩
    · exfalso
      cases hbl : t.blocks with
      | nil => rw [hbl] at hb; simp at hb
      | cons c cs =>
        have := hrk id t hl c (by rw [hbl]; exact List.mem_cons_self _ _)
        omega
  | succ n ih =>
    intro id f t hr hf hl
    rcases Nat.exists_eq_succ_of_ne_zero (by omega : f ≠ 0) with ⟨a, rfl⟩
    simp only [plainPL, hl]
    by_cases hb : t.blocks.isEmpty
    · simp only [hb, if_true]
      refine ⟨rfl, le_rfl, ?_, rfl⟩
      simp only [isChain]
      exact (containsKey_iff_lookup _ _).mpr ⟨t, hl⟩
    · simp only [hb, Bool.false_eq_true, if_false]
      have hstep : ∀ c ∈ t.blocks, ∀ acc : PLResult,
          (acc.2.length = acc.1 ∧ (1 ≤ acc.1 → isChain s acc.2 = true ∧
            ∃ c' ∈ Task.blocks t, acc.2.head? = some c')) →
          ((let q := plainPL s a c
            if q.1 > acc.1 then q else acc).2.length =
            (let q := plainPL s a c
            if q.1 > acc.1 then q else acc).1 ∧
           (1 ≤ (let q := plainPL s a c
            if q.1 > acc.1 then q else acc).1 →
            isChain s (let q := plainPL s a c
              if q.1 > acc.1 then q else acc).2 = true ∧
            ∃ c' ∈ Task.blocks t, (let q := plainPL s a c
              if q.1 > acc.1 then q else acc).2.head? = some c')) ∧
          acc.1 ≤ (let q := plainPL s a c
            if q.1 > acc.1 then q else acc).1 ∧
          1 ≤ (let q := plainPL s a c
            if q.1 > acc.1 then q else acc).1 := by
        intro c hc acc hg
        have hcc := hcl id t hl c hc
        rcases (containsKey_iff_lookup _ _).mp hcc with ⟨tc, htc⟩
        have hrc := hrk id t hl c hc
        have hreal := ih c a tc (by omega) (by omega) htc
        dsimp only
        by_cases hgt : (plainPL s a c).1 > acc.1
        · rw [if_pos hgt]
          exact ⟨⟨hreal.1, fun _ => ⟨hreal.2.2.1, c, hc, hreal.2.2.2⟩⟩,
            by omega, hreal.2.1⟩
        · rw [if_neg hgt]
          have h1 : 1 ≤ acc.1 := by
            have := hreal.2.1
            omega
          exact ⟨hg, le_rfl, h1⟩
      have hfoldG : ∀ cs : List String, (∀ c ∈ cs, c ∈ t.blocks) → ∀ acc : PLResult,
          (acc.2.length = acc.1 ∧ (1 ≤ acc.1 → isChain s acc.2 = true ∧
            ∃ c' ∈ Task.blocks t, acc.2.head? = some c')) →
          ((cs.foldl (fun (acc : PLResult) child =>
              let q := plainPL s a child
              if q.1 > acc.1 then q else acc) acc).2.length =
            (cs.foldl (fun (acc : PLResult) child =>
              let q := plainPL s a child
              if q.1 > acc.1 then q else acc) acc).1 ∧
           (1 ≤ (cs.foldl (fun (acc : PLResult) child =>
              let q := plainPL s a child
              if q.1 > acc.1 then q else acc) acc).1 →
            isChain s (cs.foldl (fun (acc : PLResult) child =>
              let q := plainPL s a child
              if q.1 > acc.1 then q else acc) acc).2 = true ∧
            ∃ c' ∈ Task.blocks t, (cs.foldl (fun (acc : PLResult) child =>
              let q := plainPL s a child
              if q.1 > acc.1 then q else acc) acc).2.head? = some c')) ∧
          acc.1 ≤ (cs.foldl (fun (acc : PLResult) child =>
              let q := plainPL s a child
              if q.1 > acc.1 then q else acc) acc).1 := by
        intro cs
        induction cs with
        | nil =>
          intro _ acc hg
          exact ⟨hg, le_rfl⟩
        | cons c cs' ihcs =>
          intro hsub acc hg
          simp only [List.foldl_cons]
          rcases hstep c (hsub c (List.mem_cons_self _ _)) acc hg with ⟨hg', hmono, _⟩
          rcases ihcs (fun x hx => hsub x (List.mem_cons_of_mem _ hx)) _ hg' with
            ⟨hg'', hmono'⟩
          exact ⟨hg'', le_trans hmono hmono'⟩
      cases hbl : t.blocks with
      | nil => rw [hbl] at hb; simp at hb
      | cons c0 cs0 =>
        simp only [List.foldl_cons]
        have hg0 : ((0, []) : PLResult).2.length = ((0, []) : PLResult).1 ∧
            (1 ≤ ((0, []) : PLResult).1 → isChain s ((0, []) : PLResult).2 = true ∧
              ∃ c' ∈ Task.blocks t, ((0, []) : PLResult).2.head? = some c') := by
          refine ⟨rfl, ?_⟩
          intro h
          omega
        have hc0mem : c0 ∈ t.blocks := by rw [hbl]; exact List.mem_cons_self _ _
        rcases hstep c0 hc0mem (0, []) hg0 with ⟨hg1, _, hone⟩
        have hsub : ∀ x ∈ cs0, x ∈ t.blocks := by
          intro x hx
          rw [hbl]
          exact List.mem_cons_of_mem _ hx
        rcases hfoldG cs0 hsub _ hg1 with ⟨⟨hlen, hchainex⟩, hmono⟩
        have hone' : 1 ≤ (cs0.foldl (fun (acc : PLResult) child =>
            let q := plainPL s a child
            if q.1 > acc.1 then q else acc)
            (let q := plainPL s a c0
             if q.1 > ((0, []) : PLResult).1 then q else (0, []))).1 :=
          le_trans hone hmono
        rcases hchainex hone' with ⟨hchain, c', hc'mem, hhead⟩
        refine ⟨by simp [hlen]; omega, by omega, ?_, rfl⟩
        -- chain for id :: fold.2
        rcases hfold2 : (cs0.foldl (fun (acc : PLResult) child =>
            let q := plainPL s a child
            if q.1 > acc.1 then q else acc)
            (let q := plainPL s a c0
             if q.1 > ((0, []) : PLResult).1 then q else (0, []))).2 with _ | ⟨x, xs⟩
        · rw [hfold2] at hhead
          exact absurd hhead (by simp)
        · rw [hfold2] at hhead hchain
          injection hhead with hhead
          simp only [isChain, hl]
          rw [Bool.and_eq_true]
          constructor
          · rw [hhead]
            have : c' ∈ t.blocks := hc'mem
            exact List.elem_eq_true_of_mem this
          · exact hchain

/-- A stored task has `plainPL` length at least 1. -/
theorem plainPL_pos (s : TaskList) (f : Nat) (id : String) (t : Task)
    (hf : 0 < f) (hl : TaskList.get s id = some t) : 1 ≤ (plainPL s f id).1 := by
  rcases Nat.exists_eq_succ_of_ne_zero (by omega : f ≠ 0) with ⟨a, rfl⟩
  simp only [plainPL, hl]
  by_cases hb : t.blocks.isEmpty
  · simp [hb]
  · simp only [hb, Bool.false_eq_true, if_false]
    omega

/-- The children fold of `plainPL` never decreases the accumulator. -/
theorem plainPL_fold_mono (s : TaskList) (a : Nat) (cs : List String) :
    ∀ acc : PLResult, acc.1 ≤ (cs.foldl (fun (acc : PLResult) child =>
      let q := plainPL s a child
      if q.1 > acc.1 then q else acc) acc).1 := by
  induction cs with
  | nil => intro acc; exact le_rfl
  | cons c cs' ih =>
    intro acc
    simp only [List.foldl_cons]
    refine le_trans ?_ (ih _)
    dsimp only
    by_cases h : (plainPL s a c).1 > acc.1
    · rw [if_pos h]; omega
    · rw [if_neg h]

/-- The children fold of `plainPL` dominates every scanned child. -/
theorem plainPL_fold_ge (s : TaskList) (a : Nat) (b : String) :
    ∀ cs : List String, b ∈ cs → ∀ acc : PLResult,
      (plainPL s a b).1 ≤ (cs.foldl (fun (acc : PLResult) child =>
        let q := plainPL s a child
        if q.1 > acc.1 then q else acc) acc).1 := by
  intro cs
  induction cs with
  | nil => intro hb; cases hb
  | cons c cs' ih =>
    intro hb acc
    simp only [List.foldl_cons]
    rcases List.mem_cons.mp hb with rfl | hb'
    · refine le_trans ?_ (plainPL_fold_mono s a cs' _)
      dsimp only
      by_cases h : (plainPL s a b).1 > acc.1
      · rw [if_pos h]
      · rw [if_neg h]; omega
    · exact ih hb' _

/-- No `blocks` chain starting at a task is longer than its `plainPL`
length. -/
theorem plainPL_maximal (s : TaskList) (rank : String → Nat)
    (hrk : ∀ k t, lookup s.tasks k = some t → ∀ c ∈ Task.blocks t, rank c < rank k) :
    ∀ r id f, rank id ≤ r → rank id < f → ∀ q, isChain s q = true →
      q.head? = some id → q.length ≤ (plainPL s f id).1 := by
  intro r
  induction r with
  | zero =>
    intro id f hr hf q hq hhead
    cases q with
    | nil => exact absurd hhead (by simp)
    | cons x qs =>
      rw [List.head?_cons] at hhead
      injection hhead with hx
      subst hx
      cases qs with
      | nil =>
        simp only [isChain] at hq
        rcases (containsKey_iff_lookup _ _).mp hq with ⟨t, ht⟩
        simpa using plainPL_pos s f x t (by omega) ht
      | cons b rest =>
        exfalso
        simp only [isChain, Bool.and_eq_true] at hq
        cases hget : TaskList.get s x with
        | none => rw [hget] at hq; simp at hq
        | some t =>
          rw [hget] at hq
          have hbmem : b ∈ t.blocks := List.mem_of_elem_eq_true hq.1
          have := hrk x t hget b hbmem
          omega
  | succ n ih =>
    intro id f hr hf q hq hhead
    cases q with
    | nil => exact absurd hhead (by simp)
    | cons x qs =>
      rw [List.head?_cons] at hhead
      injection hhead with hx
      subst hx
      cases qs with
      | nil =>
        simp only [isChain] at hq
        rcases (containsKey_iff_lookup _ _).mp hq with ⟨t, ht⟩
        simpa using plainPL_pos s f x t (by omega) ht
      | cons b rest =>
        simp only [isChain, Bool.and_eq_true] at hq
        cases hget : TaskList.get s x with
        | none => rw [hget] at hq; simp at hq
        | some t =>
          rw [hget] at hq
          have hbmem : b ∈ t.blocks := List.mem_of_elem_eq_true hq.1
          have hrb := hrk x t hget b hbmem
          rcases Nat.exists_eq_succ_of_ne_zero (by omega : f ≠ 0) with ⟨a, rfl⟩
          have hblocks_ne : ¬ t.blocks.isEmpty = true := by
            cases hbl : t.blocks with
            | nil => rw [hbl] at hbmem; cases hbmem
            | cons u us => simp [hbl]
          simp only [plainPL, hget]
          rw [if_neg hblocks_ne]
          dsimp only
          have hih := ih b a (by omega) (by omega) (b :: rest) hq.2 rfl
          have hge := plainPL_fold_ge s a b t.blocks hbmem (0, [])
          dsimp only at hge
          simp only [List.length_cons] at hih ⊢
          omega

/-- The memoized `path_length` agrees with the memo-free `plainPL` and
keeps its memo sound. -/
theorem path_length_bridge (s : TaskList) (rank : String → Nat)
    (hrk : ∀ k t, lookup s.tasks k = some t → ∀ c ∈ Task.blocks t, rank c < rank k) :
    ∀ r id f memo, rank id ≤ r → rank id < f → MemoOk s rank memo →
      (path_length s f id memo).1 = plainPL s f id ∧
      MemoOk s rank (path_length s f id memo).2 := by
  intro r
  induction r with
  | zero =>
    intro id f memo hr hf hmemo
    rcases Nat.exists_eq_succ_of_ne_zero (by omega : f ≠ 0) with ⟨a, rfl⟩
    simp only [path_length]
    cases hml : lookup memo id with
    | some v =>
      exact ⟨(hmemo id v hml _ hf).symm, hmemo⟩
    | none =>
      cases hget : TaskList.get s id with
      | none =>
        dsimp only
        constructor
        · simp only [plainPL, hget]
        · exact hmemo
      | some t =>
        dsimp only
        by_cases hb : t.blocks.isEmpty
        · rw [if_pos hb]
          constructor
          · simp only [plainPL, hget]
            rw [if_pos hb]
          · intro k v hkv g hg
            by_cases hk : k = id
            · subst hk
              rw [lookup_dictSet_self] at hkv
              injection hkv with hkv
              subst hkv
              rcases Nat.exists_eq_succ_of_ne_zero
                (by omega : g ≠ 0) with ⟨g', rfl⟩
              simp only [plainPL, hget]
              rw [if_pos hb]
            · rw [lookup_dictSet_ne _ _ hk] at hkv
              exact hmemo k v hkv g hg
        · exfalso
          cases hbl : t.blocks with
          | nil => rw [hbl] at hb; simp at hb
          | cons c cs =>
            have := hrk id t hget c (by rw [hbl]; exact List.mem_cons_self _ _)
            omega
  | succ n ih =>
    intro id f memo hr hf hmemo
    rcases Nat.exists_eq_succ_of_ne_zero (by omega : f ≠ 0) with ⟨a, rfl⟩
    simp only [path_length]
    cases hml : lookup memo id with
    | some v =>
      exact ⟨(hmemo id v hml _ hf).symm, hmemo⟩
    | none =>
      cases hget : TaskList.get s id with
      | none =>
        dsimp only
        constructor
        · simp only [plainPL, hget]
        · exact hmemo
      | some t =>
        dsimp only
        by_cases hb : t.blocks.isEmpty
        · rw [if_pos hb]
          constructor
          · simp only [plainPL, hget]
            rw [if_pos hb]
          · intro k v hkv g hg
            by_cases hk : k = id
            · subst hk
              rw [lookup_dictSet_self] at hkv
              injection hkv with hkv
              subst hkv
              rcases Nat.exists_eq_succ_of_ne_zero
                (by omega : g ≠ 0) with ⟨g', rfl⟩
              simp only [plainPL, hget]
              rw [if_pos hb]
            · rw [lookup_dictSet_ne _ _ hk] at hkv
              exact hmemo k v hkv g hg
        · rw [if_neg hb]
          have hfold : ∀ cs : List String, (∀ c ∈ cs, c ∈ t.blocks) →
              ∀ pm : PLResult × Memo, MemoOk s rank pm.2 →
              (cs.foldl (fun (p : PLResult × Memo) child =>
                  let q := path_length s a child p.2
                  (if q.1.1 > p.1.1 then q.1 else p.1, q.2)) pm).1 =
                cs.foldl (fun (acc : PLResult) child =>
                  let q := plainPL s a child
                  if q.1 > acc.1 then q else acc) pm.1 ∧
              MemoOk s rank
                ((cs.foldl (fun (p : PLResult × Memo) child =>
                  let q := path_length s a child p.2
                  (if q.1.1 > p.1.1 then q.1 else p.1, q.2)) pm).2) := by
            intro cs
            induction cs with
            | nil =>
              intro _ pm hm
              exact ⟨rfl, hm⟩
            | cons c cs' ihcs =>
              intro hsub pm hm
              simp only [List.foldl_cons]
              have hcmem := hsub c (List.mem_cons_self _ _)
              have hrc := hrk id t hget c hcmem
              have hq := ih c a pm.2 (by omega) (by omega) hm
              have hstep := ihcs
                (fun x hx => hsub x (List.mem_cons_of_mem _ hx))
                ((if (path_length s a c pm.2).1.1 > pm.1.1
                  then (path_length s a c pm.2).1 else pm.1),
                 (path_length s a c pm.2).2) hq.2
              dsimp only at hstep ⊢
              refine ⟨?_, hstep.2⟩
              rw [hstep.1, hq.1]
          rcases hfold t.blocks (fun _ h => h) ((0, []), memo) hmemo with
            ⟨hf1, hf2⟩
          dsimp only at hf1 ⊢
          constructor
          · rw [hf1]
            simp only [plainPL, hget]
            rw [if_neg hb]
          · intro k v hkv g hg
            by_cases hk : k = id
            · subst hk
              rw [lookup_dictSet_self] at hkv
              injection hkv with hkv
              subst hkv
              rw [hf1]
              have hstab := plainPL_stable s rank hrk (rank k) k g (a + 1)
                le_rfl hg hf
              rw [hstab]
              simp only [plainPL, hget]
              rw [if_neg hb]
            · rw [lookup_dictSet_ne _ _ hk] at hkv
              exact hf2 k v hkv g hg

/-- Soundness of `find_critical_path` on well-formed acyclic graphs: the
result is a `blocks` chain, its head is a root, and no root-headed chain
is longer. -/
theorem find_critical_path_sound (s : TaskList) (rank : String → Nat)
    (hkm : KeysMatch s) (hnd : KeysNodup s)
    (hcl : BlocksClosed s) (hro : RankOk s rank) (hrb : RankBound s rank) :
    isChain s (find_critical_path s) = true ∧
    (∀ a, (find_critical_path s).head? = some a → isRoot s a = true) ∧
    (∀ q, isChain s q = true → (∀ a, q.head? = some a → isRoot s a = true) →
      q.length ≤ (find_critical_path s).length) := by
  have hrk' : ∀ k t, lookup s.tasks k = some t →
      ∀ c ∈ Task.blocks t, rank c < rank k :=
    fun k t hl c hc => hro (k, t) (mem_of_lookup_eq_some hl) c hc
  have hcl' : ∀ k t, lookup s.tasks k = some t →
      ∀ c ∈ Task.blocks t, containsKey s.tasks c = true :=
    fun k t hl c hc => hcl (k, t) (mem_of_lookup_eq_some hl) c hc
  have hbound : ∀ k t, lookup s.tasks k = some t →
      rank k < s.tasks.length + 1 := by
    intro k t hl
    have h := hrb (k, t) (mem_of_lookup_eq_some hl)
    dsimp only at h
    omega
  have hrootmem : ∀ rt,
      rt ∈ ((valuesOf s.tasks).filter
        (fun t => t.blocked_by.isEmpty)).map (fun t => t.id) ↔
      (∃ t, lookup s.tasks rt = some t ∧ t.blocked_by.isEmpty = true) := by
    intro rt
    constructor
    · intro h
      rcases List.mem_map.mp h with ⟨t, htf, rfl⟩
      rcases List.mem_filter.mp htf with ⟨htv, hempty⟩
      rcases mem_valuesOf.mp htv with ⟨k, hkt⟩
      have hid : Task.id t = k := hkm (k, t) hkt
      refine ⟨t, ?_, hempty⟩
      rw [hid]
      exact lookup_eq_some_of_mem hkt hnd
    · rintro ⟨t, hl, hempty⟩
      have hkt := mem_of_lookup_eq_some hl
      have hid : Task.id t = rt := hkm (rt, t) hkt
      rw [← hid]
      exact List.mem_map.mpr
        ⟨t, List.mem_filter.mpr ⟨mem_valuesOf.mpr ⟨rt, hkt⟩, hempty⟩, rfl⟩
  have hisroot : ∀ rt, isRoot s rt = true ↔
      (∃ t, lookup s.tasks rt = some t ∧ t.blocked_by.isEmpty = true) := by
    intro rt
    unfold isRoot
    cases hl : lookup s.tasks rt with
    | none => simp
    | some t => simp
  have hmemo0 : MemoOk s rank [] := by
    intro k v hkv
    exact absurd hkv (by simp [lookup])
  have hcand : ∀ rt t, lookup s.tasks rt = some t →
      (path_length s (s.tasks.length + 1) rt []).1 =
        plainPL s (s.tasks.length + 1) rt := by
    intro rt t hl
    exact (path_length_bridge s rank hrk' (rank rt) rt _ [] le_rfl
      (hbound rt t hl) hmemo0).1
  have hreal : ∀ rt t, lookup s.tasks rt = some t →
      (plainPL s (s.tasks.length + 1) rt).2.length =
        (plainPL s (s.tasks.length + 1) rt).1 ∧
      1 ≤ (plainPL s (s.tasks.length + 1) rt).1 ∧
      isChain s (plainPL s (s.tasks.length + 1) rt).2 = true ∧
      (plainPL s (s.tasks.length + 1) rt).2.head? = some rt := by
    intro rt t hl
    exact plainPL_realizes s rank hrk' hcl' (rank rt) rt _ t le_rfl
      (hbound rt t hl) hl
  have hfoldR : ∀ rs : List String, (∀ rt ∈ rs, isRoot s rt = true) →
      ∀ acc : PLResult, GoodPath s acc →
      GoodPath s (rs.foldl (fun (acc : PLResult) root =>
        if (path_length s (s.tasks.length + 1) root []).1.1 > acc.1
        then (path_length s (s.tasks.length + 1) root []).1 else acc) acc) ∧
      acc.1 ≤ (rs.foldl (fun (acc : PLResult) root =>
        if (path_length s (s.tasks.length + 1) root []).1.1 > acc.1
        then (path_length s (s.tasks.length + 1) root []).1 else acc) acc).1 ∧
      (∀ rt ∈ rs, (plainPL s (s.tasks.length + 1) rt).1 ≤
        (rs.foldl (fun (acc : PLResult) root =>
          if (path_length s (s.tasks.length + 1) root []).1.1 > acc.1
          then (path_length s (s.tasks.length + 1) root []).1 else acc) acc).1) := by
    intro rs
    induction rs with
    | nil =>
      intro _ acc hg
      refine ⟨hg, le_rfl, ?_⟩
      intro rt h
      cases h
    | cons rt0 rs' ih =>
      intro hall acc hg
      simp only [List.foldl_cons]
      rcases (hisroot rt0).mp (hall rt0 (List.mem_cons_self _ _)) with
        ⟨t0, hl0, _⟩
      have hc0 := hcand rt0 t0 hl0
      have hr0 := hreal rt0 t0 hl0
      have hg1 : GoodPath s
          (if (path_length s (s.tasks.length + 1) rt0 []).1.1 > acc.1
           then (path_length s (s.tasks.length + 1) rt0 []).1 else acc) := by
        by_cases hgt : (path_length s (s.tasks.length + 1) rt0 []).1.1 > acc.1
        · rw [if_pos hgt, hc0]
          exact ⟨hr0.1, fun _ =>
            ⟨hr0.2.2.1, rt0, hr0.2.2.2, hall rt0 (List.mem_cons_self _ _)⟩⟩
        · rw [if_neg hgt]
          exact hg
      have hmono1 : acc.1 ≤
          (if (path_length s (s.tasks.length + 1) rt0 []).1.1 > acc.1
           then (path_length s (s.tasks.length + 1) rt0 []).1 else acc).1 := by
        by_cases hgt : (path_length s (s.tasks.length + 1) rt0 []).1.1 > acc.1
        · rw [if_pos hgt]
          omega
        · rw [if_neg hgt]
      have hge1 : (plainPL s (s.tasks.length + 1) rt0).1 ≤
          (if (path_length s (s.tasks.length + 1) rt0 []).1.1 > acc.1
           then (path_length s (s.tasks.length + 1) rt0 []).1 else acc).1 := by
        by_cases hgt : (path_length s (s.tasks.length + 1) rt0 []).1.1 > acc.1
        · rw [if_pos hgt, hc0]
        · rw [if_neg hgt]
          rw [hc0] at hgt
          omega
      rcases ih (fun x hx => hall x (List.mem_cons_of_mem _ hx)) _ hg1 with
        ⟨hgf, hmonof, hgef⟩
      refine ⟨hgf, le_trans hmono1 hmonof, ?_⟩
      intro rt hrt
      rcases List.mem_cons.mp hrt with rfl | hrt'
      · exact le_trans hge1 hmonof
      · exact hgef rt hrt'
  unfold find_critical_path
  dsimp only
  have hall : ∀ rt ∈ ((valuesOf s.tasks).filter
      (fun t => t.blocked_by.isEmpty)).map (fun t => t.id),
      isRoot s rt = true :=
    fun rt h => (hisroot rt).mpr ((hrootmem rt).mp h)
  have hg0 : GoodPath s ((0, []) : PLResult) := by
    refine ⟨rfl, ?_⟩
    intro h
    exact absurd h (by omega)
  rcases hfoldR _ hall (0, []) hg0 with ⟨⟨hlen, hchainex⟩, _, hge⟩
  refine ⟨?_, ?_, ?_⟩
  · by_cases hone : 1 ≤ (((valuesOf s.tasks).filter
        (fun t => t.blocked_by.isEmpty)).map (fun t => t.id) |>.foldl
        (fun (acc : PLResult) root =>
          if (path_length s (s.tasks.length + 1) root []).1.1 > acc.1
          then (path_length s (s.tasks.length + 1) root []).1 else acc)
        (0, [])).1
    · exact (hchainex hone).1
    · have h0 : (((valuesOf s.tasks).filter
          (fun t => t.blocked_by.isEmpty)).map (fun t => t.id) |>.foldl
          (fun (acc : PLResult) root =>
            if (path_length s (s.tasks.length + 1) root []).1.1 > acc.1
            then (path_length s (s.tasks.length + 1) root []).1 else acc)
          (0, [])).2.length = 0 := by omega
      rw [List.length_eq_zero.mp h0]
      rfl
  · intro a ha
    have hne : (((valuesOf s.tasks).filter
        (fun t => t.blocked_by.isEmpty)).map (fun t => t.id) |>.foldl
        (fun (acc : PLResult) root =>
          if (path_length s (s.tasks.length + 1) root []).1.1 > acc.1
          then (path_length s (s.tasks.length + 1) root []).1 else acc)
        (0, [])).2 ≠ [] := by
      intro hnil
      rw [hnil] at ha
      exact absurd ha (by simp)
    have hpos : 1 ≤ (((valuesOf s.tasks).filter
        (fun t => t.blocked_by.isEmpty)).map (fun t => t.id) |>.foldl
        (fun (acc : PLResult) root =>
          if (path_length s (s.tasks.length + 1) root []).1.1 > acc.1
          then (path_length s (s.tasks.length + 1) root []).1 else acc)
        (0, [])).1 := by
      have := List.length_pos.mpr hne
      omega
    rcases (hchainex hpos).2 with ⟨rt, hh, hr⟩
    rw [ha] at hh
    injection hh with hh
    rw [hh]
    exact hr
  · intro q hq hqroot
    cases q with
    | nil => exact Nat.zero_le _
    | cons x qs =>
      have hrx : isRoot s x = true := hqroot x (by rw [List.head?_cons])
      rcases (hisroot x).mp hrx with ⟨t, hl, hempty⟩
      have hxmem : x ∈ ((valuesOf s.tasks).filter
          (fun t => t.blocked_by.isEmpty)).map (fun t => t.id) :=
        (hrootmem x).mpr ⟨t, hl, hempty⟩
      have hqle := plainPL_maximal s rank hrk' (rank x) x
        (s.tasks.length + 1) le_rfl (hbound x t hl) (x :: qs) hq
        (by rw [List.head?_cons])
      have hgex := hge x hxmem
      omega

/-! ## Claims -/

/-- C1 (amended): `list_available` returns exactly the tasks whose status
is not "completed" and whose every `blocked_by` id resolves (an unknown id
resolving to a default pending task) to a task with status "completed";
contrary to the claim, a task with status "failed" is not excluded. -/
theorem c1_frontier_characterization (s : TaskList) (t : Task) :
    t ∈ s.list_available ↔
      t ∈ valuesOf s.tasks ∧ ¬ t.status = "completed" ∧
      ∀ d ∈ t.blocked_by, depStatus s d = "completed" :=
  mem_list_available_iff s t

/-- C1 counterexample: in `exFailed` the only task has status "failed"
and no dependencies, yet `list_available` returns it — refuting the
claim's "neither completed nor failed" clause. -/
theorem c1_counterexample :
    (exFailed.list_available).map Task.status = ["failed"] := by decide

/-- C2 (amended): `update` performs no status-transition validation —
for any existing task and any non-empty status string the call succeeds
and stores that status verbatim (recording `completed_at` exactly when the
new status is "completed"), so a backward move such as completed → pending
is accepted; the only `update` error is the ValueError for an unknown
task id. -/
theorem c2_update_applies_any_status :
    (∀ (s : TaskList) (id st now : String),
      containsKey s.tasks id = true → ¬ st = "" →
      ∃ s' t', s.update id (some st) none none none none none now = Except.ok (s', t') ∧
        lookup s'.tasks id = some t' ∧ t'.status = st) ∧
    (∀ (s : TaskList) (id : String) (status subject description owner : Option String)
      (abb ab : Option (List String)) (now : String),
      containsKey s.tasks id = false →
      s.update id status subject description owner abb ab now =
        Except.error ("Task " ++ id ++ " not found")) := by
  constructor
  · intro s id st now hc hst
    rcases (containsKey_iff_lookup s.tasks id).mp hc with ⟨v, hv⟩
    rw [update_status_only s id st now hc hst]
    refine ⟨_, _, rfl, ?_, ?_⟩
    · rw [lookup_dictModify_self, hv]
      simp
    · rw [lookup_dictModify_self, hv]
      by_cases hcomp : st = "completed" <;> simp [hcomp]
  · intro s id status subject description owner abb ab now hc
    simp [TaskList.update, hc]

/-- C2 witness: updating task "1" of `exCompleted` to "in_progress"
succeeds and stores that status. -/
theorem c2_witness : ∃ s' t',
    exCompleted.update "1" (some "in_progress") none none none none none "t2" =
      Except.ok (s', t') ∧
    lookup s'.tasks "1" = some t' ∧ t'.status = "in_progress" :=
  c2_update_applies_any_status.1 exCompleted "1" "in_progress" "t2" (by decide) (by decide)

/-- C2 counterexample: the backward transition completed → pending is
accepted on `exCompleted`, refuting the claimed InvalidTransition
rejection and the monotonicity consequence. -/
theorem c2_counterexample :
    (exCompleted.update "1" (some "pending") none none none none none "t9").toOption.map
      (fun p => (Task.status p.2, depStatus p.1 "1")) = some ("pending", "pending") := by
  decide

/-- C4 (amended): `create` never fails — it always stores the new task
under `str(next_id)` with the requested `blocked_by` list, increments the
counter, and raises nothing; an unknown dependency id is silently kept
one-sided (no task is created for it), and no cycle check is performed. -/
theorem c4_create_never_fails (s : TaskList) (subject description af : String)
    (bb : Option (List String)) (now : String) :
    (s.create subject description af bb now).1.next_id = s.next_id + 1 ∧
    ((s.create subject description af bb now).2.id = toString s.next_id ∧
     (s.create subject description af bb now).2.status = "pending" ∧
     (s.create subject description af bb now).2.blocked_by = bb.getD []) ∧
    lookup (s.create subject description af bb now).1.tasks (toString s.next_id) =
      some (s.create subject description af bb now).2 ∧
    (∀ d, ¬ d = toString s.next_id → lookup s.tasks d = none →
      lookup (s.create subject description af bb now).1.tasks d = none) :=
  create_effects s subject description af bb now

/-- C4 witness: creating a task blocked by the unknown id "99" succeeds
and still stores no task under "99". -/
theorem c4_witness :
    lookup ((TaskList.empty "w").create "S" "D" "" (some ["99"]) "t").1.tasks "99" = none :=
  (c4_create_never_fails (TaskList.empty "w") "S" "D" "" (some ["99"]) "t").2.2.2
    "99" (by decide) (by rfl)

/-- C4 counterexample: `exDangling` keeps a dangling `blocked_by` entry
"99" with no such task and no error, and `exSelfLoop` (created with
`blocked_by = [str(next_id)]`) holds a self-loop — refuting the claimed
unknown-id and cycle rejections. -/
theorem c4_counterexample :
    keysOf exDangling.tasks = ["1"] ∧
    ((lookup exDangling.tasks "1").getD defaultTask).blocked_by = ["99"] ∧
    lookup exDangling.tasks "99" = none ∧
    ((lookup exSelfLoop.tasks "1").getD defaultTask).blocked_by = ["1"] ∧
    ((lookup exSelfLoop.tasks "1").getD defaultTask).blocks = ["1"] := by
  decide

/-- C7: wave independence — two distinct tasks returned by a single
`list_available` call never name each other in `blocked_by`, because an
available task's dependencies are all "completed" while an available task
is never "completed". -/
theorem c7_wave_independence (s : TaskList) (a b : Task)
    (hkm : KeysMatch s) (hnd : KeysNodup s)
    (ha : a ∈ s.list_available) (hb : b ∈ s.list_available) :
    ¬ Task.id b ∈ a.blocked_by ∧ ¬ Task.id a ∈ b.blocked_by := by
  have key : ∀ x y : Task, x ∈ s.list_available → y ∈ s.list_available →
      ¬ Task.id y ∈ x.blocked_by := by
    intro x y hx hy hmem
    rcases (mem_list_available_iff s x).mp hx with ⟨_, _, hxall⟩
    rcases (mem_list_available_iff s y).mp hy with ⟨hyv, hys, _⟩
    have hlook := lookup_id_of_mem_values hkm hnd hyv
    have hdep := hxall y.id hmem
    rw [depStatus, hlook] at hdep
    simp at hdep
    exact hys hdep
  exact ⟨key a b ha hb, key b a hb ha⟩

/-- C7 witness: tasks "2" and "3" share the frontier of
`exDiamondDone1` and neither blocks the other. -/
theorem c7_witness :
    ¬ Task.id ((lookup exDiamondDone1.tasks "3").getD defaultTask) ∈
        ((lookup exDiamondDone1.tasks "2").getD defaultTask).blocked_by ∧
    ¬ Task.id ((lookup exDiamondDone1.tasks "2").getD defaultTask) ∈
        ((lookup exDiamondDone1.tasks "3").getD defaultTask).blocked_by :=
  c7_wave_independence exDiamondDone1
    ((lookup exDiamondDone1.tasks "2").getD defaultTask)
    ((lookup exDiamondDone1.tasks "3").getD defaultTask)
    (by unfold KeysMatch; decide) (by unfold KeysNodup; decide) (by decide) (by decide)

/-- C10: a task whose `blocked_by` contains an id naming no stored task
is never returned by `list_available` (and no error is raised): the
unknown dependency reads as a default pending task, silently keeping the
task out of the frontier. -/
theorem c10_unknown_dep_never_available (s : TaskList) (t : Task) (d : String)
    (hd : d ∈ t.blocked_by) (hnone : lookup s.tasks d = none) :
    t ∉ s.list_available := by
  intro hmem
  rcases (mem_list_available_iff s t).mp hmem with ⟨_, _, hall⟩
  have hdep := hall d hd
  rw [depStatus, hnone] at hdep
  simp [defaultTask] at hdep

/-- C10 witness: the task of `exDangling`, blocked by the unknown id
"99", is absent from the frontier. -/
theorem c10_witness :
    ((lookup exDangling.tasks "1").getD defaultTask) ∉ exDangling.list_available :=
  c10_unknown_dep_never_available exDangling
    ((lookup exDangling.tasks "1").getD defaultTask) "99" (by decide) (by rfl)

/-- C9: persistence round-trip — saving a well-formed `TaskList` and
loading the result reconstructs the same `list_id` and the identical task
dict, every field included. -/
theorem c9_persistence_roundtrip (s : TaskList) (now now2 : String)
    (hkm : KeysMatch s) (hnd : KeysNodup s) :
    ∃ s', TaskList.load s.list_id (s.save now) now2 = some s' ∧
      s'.tasks = s.tasks ∧ s'.list_id = s.list_id := by
  rcases loadTasks_roundtrip now2 s.tasks [] 1 hkm (by simpa using hnd) with ⟨nid', hload⟩
  refine ⟨{ list_id := s.list_id, tasks := s.tasks, next_id := nid' }, ?_, rfl, rfl⟩
  simp only [TaskList.save, TaskList.load, lookup]
  rw [show ([] : TaskDict) ++ s.tasks = s.tasks from by simp] at hload
  simp [hload]

/-- C9 witness: the round-trip on `exDiamond` reproduces its tasks and
list id. -/
theorem c9_witness : ∃ s',
    TaskList.load exDiamond.list_id (exDiamond.save "t8") "t9" = some s' ∧
      s'.tasks = exDiamond.tasks ∧ s'.list_id = exDiamond.list_id :=
  c9_persistence_roundtrip exDiamond "t8" "t9"
    (by unfold KeysMatch; decide) (by unfold KeysNodup; decide)

/-- C8: the coordinator wave loop never spins — on any well-formed
state, with every executor invocation returning, fuel equal to the number
of non-completed tasks plus one is enough for `runLoop` to reach a break
(all done, a stuck report, or a propagated error) rather than run out. -/
theorem c8_runLoop_terminates (execf : Executor) (now : String) (st : SwarmState)
    (fuel : Nat) (hkm : KeysMatch st.tasks) (hnd : KeysNodup st.tasks)
    (hfuel : nonCompletedCount st.tasks + 1 ≤ fuel) :
    ¬ runLoop execf now fuel st = none :=
  runLoop_terminates_aux execf now (nonCompletedCount st.tasks) st fuel hkm hnd le_rfl hfuel

/-- C8 witness: on the diamond swarm state with the always-succeeding
executor, `nonCompletedCount + 1` waves suffice. -/
theorem c8_witness :
    ¬ runLoop alwaysOk "t" (nonCompletedCount exSwarmDiamond.tasks + 1) exSwarmDiamond = none :=
  c8_runLoop_terminates alwaysOk "t" exSwarmDiamond _
    (by unfold KeysMatch; decide) (by unfold KeysNodup; decide) le_rfl

/-- C5 (amended): when an executor invocation fails, the error
propagates out of `executeAvailable` and `runLoop` — the run aborts with
that error, the failing task is left "in_progress" (never marked
"failed", no error text recorded on it) and no result is stored for
it. -/
theorem c5_executor_failure_aborts (execf : Executor) (now e : String)
    (st : SwarmState) (t : Task) (rest : List Task) (fuel : Nat)
    (hkm : KeysMatch st.tasks) (hnd : KeysNodup st.tasks)
    (hav : st.tasks.list_available = t :: rest)
    (hfail : ∀ c, execf t c = Except.error e) :
    ∃ st', executeAvailable execf now st = (st', Except.error e) ∧
      (∃ u, lookup st'.tasks.tasks t.id = some u ∧ u.status = "in_progress") ∧
      st'.results = st.results ∧
      runLoop execf now (fuel + 1) st = some (st', Except.error e) := by
  have hexm : ∀ u ∈ st.tasks.list_available, ∃ v,
      lookup st.tasks.tasks u.id = some v ∧ ¬ v.status = "completed" := by
    intro u hu
    rcases available_mem_lookup hkm hnd hu with ⟨h1, h2⟩
    exact ⟨u, h1, h2⟩
  rcases markWave_ok now (st.tasks.list_available) st.tasks hexm hkm with
    ⟨tl1, hmk, hkeys1, hout1, hin1, hcnt1, hkm1⟩
  have htmem : t ∈ st.tasks.list_available := by
    rw [hav]
    exact List.mem_cons_self _ _
  rcases available_mem_lookup hkm hnd htmem with ⟨hlt, hst⟩
  have hEA : executeAvailable execf now st = ({ st with tasks := tl1 }, Except.error e) := by
    rw [executeAvailable]
    dsimp only
    rw [hav]
    rw [if_neg (by simp)]
    rw [hav] at hmk
    rw [hmk]
    dsimp only
    rw [List.map_cons]
    exact runWave_first_fails execf now t _ _ _ e (hfail _)
  refine ⟨{ st with tasks := tl1 }, hEA, ?_, rfl, ?_⟩
  · have := hin1 t.id (by rw [hav]; exact List.mem_map_of_mem _ (List.mem_cons_self _ _))
    rw [this, hlt]
    exact ⟨_, rfl, rfl⟩
  · rw [runLoop]
    rcases (mem_list_available_iff st.tasks t).mp htmem with ⟨hv, hs, _⟩
    have hmem : t ∈ st.tasks.list_all.filter (fun u => !(u.status == "completed")) :=
      List.mem_filter.mpr ⟨hv, by simp [hs]⟩
    cases hpend : st.tasks.list_all.filter (fun u => !(u.status == "completed")) with
    | nil =>
      rw [hpend] at hmem
      simp at hmem
    | cons a as =>
      rw [if_neg (by simp)]
      rw [hEA]

/-- C5 witness: with the always-failing executor the single-task run
aborts with "boom", the task stays "in_progress" and no result is
stored. -/
theorem c5_witness :
    ∃ st', executeAvailable alwaysFail "t9" exSwarmSingle = (st', Except.error "boom") ∧
      (∃ u, lookup st'.tasks.tasks
        (Task.id ((lookup exSingle.tasks "1").getD defaultTask)) = some u ∧
        u.status = "in_progress") ∧
      st'.results = exSwarmSingle.results ∧
      runLoop alwaysFail "t9" (0 + 1) exSwarmSingle = some (st', Except.error "boom") :=
  c5_executor_failure_aborts alwaysFail "t9" "boom" exSwarmSingle
    ((lookup exSingle.tasks "1").getD defaultTask) [] 0
    (by unfold KeysMatch; decide) (by unfold KeysNodup; decide) (by decide)
    (fun _ => rfl)

/-- C5 counterexample: the failed task of `exSwarmSingle` is left
"in_progress" with the error propagated and the results map empty —
refuting the claimed `failed` marking and error recording. -/
theorem c5_counterexample :
    (runLoop alwaysFail "t" 3 exSwarmSingle).map (fun r =>
      ((match r.2 with
        | Except.error e => some e
        | Except.ok _ => none),
       (lookup r.1.tasks.tasks "1").map Task.status,
       r.1.results)) = some (some "boom", some "in_progress", []) := by
  decide

/-- C3 (amended): edge symmetry holds in every state reachable by
`create`/`update` calls whose `blocked_by`/`add_blocked_by`/`add_blocks`
arguments name existing tasks at call time: each stored `blocked_by` id
has a matching reverse `blocks` entry and conversely. -/
theorem c3_edge_symmetry (s : TaskList) (h : ReachableChecked s) :
    EdgeSymA s ∧ EdgeSymB s :=
  ⟨(inv_reachableChecked h).2.2.2.1, (inv_reachableChecked h).2.2.2.2⟩

/-- C3 witness: the diamond graph is reachable with checked ids and
satisfies both halves of edge symmetry. -/
theorem c3_witness : EdgeSymA exDiamond ∧ EdgeSymB exDiamond := by
  have h0 := ReachableChecked.init "diamond-demo"
  have h1 := ReachableChecked.create _ "Setup database" "Create database schema" ""
    none "t0" h0 (by simp)
  have h2 := ReachableChecked.create _ "User service" "Build user management" ""
    (some ["1"]) "t1" h1 (by decide)
  have h3 := ReachableChecked.create _ "Auth service" "Build authentication" ""
    (some ["1"]) "t2" h2 (by decide)
  have h4 := ReachableChecked.create _ "API gateway" "Build gateway that uses both" ""
    (some ["2", "3"]) "t3" h3 (by decide)
  exact c3_edge_symmetry _ h4

/-- C3 counterexample: without the existence precondition the claim
fails — `exDangling` is reachable by an unrestricted `create` with the
unknown dependency "99", and its stored edge has no reverse side. -/
theorem c3_counterexample : Reachable exDangling ∧ ¬ EdgeSymA exDangling := by
  constructor
  · exact Reachable.create _ "T" "dangling dep" "" (some ["99"]) "t0"
      (Reachable.init "ex-dangling")
  · intro h
    rcases h ("1", (lookup exDangling.tasks "1").getD defaultTask) (by decide)
      "99" (by decide) with ⟨td, htd, _⟩
    have hnone : lookup exDangling.tasks "99" = none := by decide
    rw [hnone] at htd
    exact Option.noConfusion htd

/-- C6: for every acyclic well-formed task graph — ids stored under their
own key (`KeysMatch`), distinct keys (`KeysNodup`), every `blocks` edge
naming a stored task (`BlocksClosed`), acyclicity witnessed by a rank
function that drops along `blocks` edges (`RankOk`) and is bounded by the
task count (`RankBound`) — `find_critical_path` returns a chain of tasks
connected by `blocks` edges whose head, when present, is a root (a task
with empty `blocked_by`), and no chain starting from a root is longer; in
particular on the diamond graph (task "1" blocks "2" and "3", which both
block "4") it deterministically returns the 3-element path
["1", "2", "4"] through "2". -/
theorem c6_critical_path (s : TaskList) (rank : String → Nat)
    (hkm : KeysMatch s) (hnd : KeysNodup s) (hcl : BlocksClosed s)
    (hro : RankOk s rank) (hrb : RankBound s rank) :
    (isChain s (find_critical_path s) = true ∧
     (∀ a, (find_critical_path s).head? = some a → isRoot s a = true) ∧
     (∀ q, isChain s q = true → (∀ a, q.head? = some a → isRoot s a = true) →
       q.length ≤ (find_critical_path s).length)) ∧
    find_critical_path exDiamond = ["1", "2", "4"] :=
  ⟨find_critical_path_sound s rank hkm hnd hcl hro hrb, by decide⟩

/-- Witness for C6: the diamond graph with its explicit rank function. -/
theorem c6_witness :
    (isChain exDiamond (find_critical_path exDiamond) = true ∧
     (∀ a, (find_critical_path exDiamond).head? = some a →
       isRoot exDiamond a = true) ∧
     (∀ q, isChain exDiamond q = true →
       (∀ a, q.head? = some a → isRoot exDiamond a = true) →
       q.length ≤ (find_critical_path exDiamond).length)) ∧
    find_critical_path exDiamond = ["1", "2", "4"] :=
  c6_critical_path exDiamond exDiamondRank
    (by unfold KeysMatch; decide) (by unfold KeysNodup; decide)
    (by unfold BlocksClosed; decide) (by unfold RankOk; decide)
    (by unfold RankBound; decide)

end TasksEngine
